import Mathlib

/-!
# Verification of the ROS message-definition cache

A shallow embedding of `src/ros_utils/message_definition_cache.cpp`
(namespace `RosMsgParser`): datatype-name parsing (`MSG_DATATYPE_REGEX`),
field-type scanning (`FIELD_TYPE_REGEX` via `std::sregex_iterator`),
dependency extraction (`parse_dependencies`), schema construction
(`MessageSpec`), cached file resolution (`load_message_spec`) and the
recursive transitive-closure walk (`get_full_text`).

The filesystem and the ament package index are modelled as finite
association lists inside an `Env`; `std::set<std::string>` is modelled as
a lexicographically sorted duplicate-free list; the recursion of
`get_full_text` is made total with a fuel parameter (each recursive level
consumes one unit; the C++ recursion depth is bounded by the number of
distinct datatypes, so any fuel beyond the dependency universe is enough,
which is proved below).
-/

/-- Character class of ECMAScript whitespace for narrow characters, the
meaning of the regular expression escape used by the field scanner. -/
def isWS (c : Char) : Bool :=
  c = ' ' || c = '\t' || c = '\n' || c = '\x0b' || c = '\x0c' || c = '\r'

/-- The character class of the two capture groups of
MSG_DATATYPE_REGEX. -/
def isNameChar (c : Char) : Bool :=
  c.isAlpha || c.isDigit || c = '_'

/-- The character class of the capture group of FIELD_TYPE_REGEX. -/
def isTokChar (c : Char) : Bool :=
  isNameChar c || c = '/'

/-! ## The field-type scanner

FIELD_TYPE_REGEX is the anchored pattern: start of input or a newline,
then optional whitespace, then a captured run of name or slash characters,
then an optional bracket group, then at least one whitespace character.
All quantifiers are over disjoint character classes, so matching at a
fixed anchor is deterministic: `matchAfterAnchor` either produces the
captured token together with the rest of the input after the greedy
trailing whitespace run, or fails. -/

/-- Attempt the part of FIELD_TYPE_REGEX after the anchor. -/
def matchAfterAnchor (cs : List Char) : Option (String × List Char) :=
  let r1 := cs.dropWhile isWS
  let tok := r1.takeWhile isTokChar
  let r2 := r1.dropWhile isTokChar
  if tok.isEmpty then none
  else
    let r3opt : Option (List Char) :=
      match r2 with
      | '[' :: r =>
        match r.dropWhile (fun c => !(c = ']')) with
        | ']' :: r3 => some r3
        | _ => none
      | _ => some r2
    match r3opt with
    | none => none
    | some r3 =>
      if (r3.takeWhile isWS).isEmpty then none
      else some (tok.asString, r3.dropWhile isWS)

/-- Continuation searches of the `std::sregex_iterator`: they carry
`match_prev_avail`, so only the newline alternative of the anchor can
fire.  On a failed attempt the search moves one character to the right.
Fuel is one plus the number of characters still to scan; every step
consumes at least one character, so the zero-fuel branch is unreachable
from the entry points below. -/
def scanStep : Nat → List Char → List String
  | 0, _ => []
  | _ + 1, [] => []
  | fuel + 1, c :: rest =>
    if c = '\n' then
      match matchAfterAnchor rest with
      | some (tok, rest2) => tok :: scanStep fuel rest2
      | none => scanStep fuel rest
    else scanStep fuel rest

/-- All tokens captured by iterating FIELD_TYPE_REGEX over the text, in
match order.  The first search may anchor with the start-of-input
alternative at position zero. -/
def scanTokens (text : String) : List String :=
  let cs := text.data
  match matchAfterAnchor cs with
  | some (tok, rest) => tok :: scanStep (rest.length + 1) rest
  | none => scanStep (cs.length + 1) cs

/-- PRIMITIVE_TYPES from the source. -/
def PRIMITIVE_TYPES : List String :=
  ["bool", "byte", "char", "float32", "float64", "int8", "uint8",
   "int16", "uint16", "int32", "uint32", "int64", "uint64", "string"]

/-- Lexicographic comparison of character lists, the order of
`std::string::operator<` (byte order and codepoint order agree on the
ASCII datatype names involved). -/
def charsLt : List Char → List Char → Bool
  | _, [] => false
  | [], _ :: _ => true
  | x :: xs, y :: ys =>
    if x.toNat < y.toNat then true
    else if y.toNat < x.toNat then false
    else charsLt xs ys

/-- Lexicographic order on strings. -/
def strLt (a b : String) : Bool :=
  charsLt a.data b.data

/-- Ordered insertion into the model of `std::set<std::string>`: a
lexicographically sorted list without duplicates. -/
def setInsert : List String → String → List String
  | [], x => [x]
  | y :: ys, x =>
    if strLt x y then x :: y :: ys
    else if x = y then y :: ys
    else y :: setInsert ys x

/-- One token's contribution to the dependency set: primitives are
dropped, unqualified names gain the package context, qualified names are
kept verbatim. -/
def qualifyToken (package_context tok : String) : Option String :=
  if tok ∈ PRIMITIVE_TYPES then none
  else if tok.data.contains '/' then some tok
  else some (package_context ++ "/" ++ tok)

/-- The body of the `sregex_iterator` loop of `parse_dependencies`:
qualify one token and insert the result, if any, into the set. -/
def depInsert (package_context : String) (s : List String) (tok : String) :
    List String :=
  match qualifyToken package_context tok with
  | none => s
  | some d => setInsert s d

/-- Model of `parse_dependencies` from the source: scan the text, qualify each
token and collect the results into the ordered set. -/
def parse_dependencies (text package_context : String) : List String :=
  (scanTokens text).foldl (depInsert package_context) []

/-- Model of `MessageSpec` from the source: dependency set plus raw text. -/
structure MessageSpec where
  dependencies : List String
  text : String
deriving DecidableEq, Repr

/-- The `MessageSpec` constructor taking the definition body and the
package context. -/
def MessageSpec.make (text package_context : String) : MessageSpec :=
  { dependencies := parse_dependencies text package_context, text := text }

/-- The distinct failure exits of `load_message_spec`. -/
inductive ResolveError where
  | invalidName (datatype : String)
  | packageNotFound (package : String)
  | notFound (datatype : String)
  | malformedService (datatype : String)
  | malformedAction (datatype : String)
deriving DecidableEq, Repr

/-- The external world as the cache sees it: the ament index mapping a
package name to its share directory, and the filesystem mapping a path to
the contents of the file there (absent key: the file cannot be opened). -/
structure Env where
  shareDir : List (String × String)
  files : List (String × String)

/-- Association-list lookup (model of map/filesystem lookups). -/
def lookupA {α : Type} : List (String × α) → String → Option α
  | [], _ => none
  | (k, v) :: rest, key => if k = key then some v else lookupA rest key

/-- The cache member `msg_specs_by_datatype_`. -/
abbrev Cache := List (String × MessageSpec)

/-- Datatype-name parsing by MSG_DATATYPE_REGEX: a package segment, an
optional literal infix msg/, srv/ or action/, and a type segment, both
segments nonempty runs of name characters.  Returns the two captures. -/
def parseType (cs : List Char) : Option (List Char) :=
  if (cs.takeWhile isNameChar).isEmpty then none
  else if (cs.dropWhile isNameChar).isEmpty then
    some (cs.takeWhile isNameChar)
  else none

/-- The part of MSG_DATATYPE_REGEX after the first slash: the optional
greedy category infix (with the regex backtracking to the infix-less
reading when the remainder fails) followed by the type capture. -/
def parseTail (rest : List Char) : Option (List Char) :=
  if ['m', 's', 'g', '/'].isPrefixOf rest then
    (parseType (rest.drop 4)).orElse (fun _ => parseType rest)
  else if ['s', 'r', 'v', '/'].isPrefixOf rest then
    (parseType (rest.drop 4)).orElse (fun _ => parseType rest)
  else if ['a', 'c', 't', 'i', 'o', 'n', '/'].isPrefixOf rest then
    (parseType (rest.drop 7)).orElse (fun _ => parseType rest)
  else parseType rest

/-- The slash between the package capture and the tail, plus the
requirement that the package capture be nonempty. -/
def parseSlash (pkg : List Char) : List Char → Option (String × String)
  | [] => none
  | c :: rest =>
    if c = '/' then
      if pkg.isEmpty then none
      else (parseTail rest).map (fun t => (pkg.asString, t.asString))
    else none

/-- Full-match of MSG_DATATYPE_REGEX, producing (package, type). -/
def parseDatatype (s : String) : Option (String × String) :=
  parseSlash (s.data.takeWhile isNameChar) (s.data.dropWhile isNameChar)

/-- Split on every occurrence of the literal delimiter `---`, scanning
left to right, exactly like the `std::string::find` loop of the source:
the text before each occurrence becomes a part, and the remainder after
the last occurrence is the final part. -/
def splitDashes : List Char → List (List Char)
  | '-' :: '-' :: '-' :: rest => [] :: splitDashes rest
  | c :: rest =>
    match splitDashes rest with
    | seg :: segs => (c :: seg) :: segs
    | [] => [[c]]
  | [] => [[]]

/-- Substring search, the meaning of the source's
`rfind(pat) != npos` test. -/
def containsSub (pat : List Char) : List Char → Bool
  | [] => pat.isEmpty
  | c :: rest => pat.isPrefixOf (c :: rest) || containsSub pat rest

/-- The part of the type name before its first underscore (the whole name
when there is none), used to build the .srv and .action file names. -/
def typTrunc (t : String) : String :=
  (t.data.takeWhile (fun c => !(c = '_'))).asString

/-- The service-file branch: split on `---`; any section count other than
two throws; the section is selected by searching the type segment for the
substring mentioned by `rfind` (`_Request` then `_Result`, in that
order); when neither occurs, the body stays empty (in the source,
`contents` is left as the empty string and the exhausted stream yields
nothing at the final re-read). -/
def parseService (datatype typ content : String) : Except ResolveError String :=
  let parts := splitDashes content.data
  if parts.length = 2 then
    .ok (if containsSub "_Request".data typ.data then (parts.getD 0 []).asString
      else if containsSub "_Result".data typ.data then (parts.getD 1 []).asString
      else "")
  else .error (.malformedService datatype)

/-- The action-file branch: split on `---`; any section count other than
three throws; `_Goal`, `_Result`, `_Feedback` select the sections in that
order of tests; no match leaves the body empty. -/
def parseAction (datatype typ content : String) : Except ResolveError String :=
  let parts := splitDashes content.data
  if parts.length = 3 then
    .ok (if containsSub "_Goal".data typ.data then (parts.getD 0 []).asString
      else if containsSub "_Result".data typ.data then (parts.getD 1 []).asString
      else if containsSub "_Feedback".data typ.data then (parts.getD 2 []).asString
      else "")
  else .error (.malformedAction datatype)

/-- The `ifstream` fallback chain of `load_message_spec`: try
`msg/<T>.msg`, then `srv/<T>.msg` (whole file, no splitting), then
`srv/<base>.srv`, then `action/<base>.action`; when none of the four
files opens, throw the not-found error. -/
def resolveContents (env : Env) (share_dir typ datatype : String) :
    Except ResolveError String :=
  match lookupA env.files (share_dir ++ "/msg/" ++ typ ++ ".msg") with
  | some c => .ok c
  | none =>
    match lookupA env.files (share_dir ++ "/srv/" ++ typ ++ ".msg") with
    | some c => .ok c
    | none =>
      match lookupA env.files (share_dir ++ "/srv/" ++ typTrunc typ ++ ".srv") with
      | some c => parseService datatype typ c
      | none =>
        match lookupA env.files (share_dir ++ "/action/" ++ typTrunc typ ++ ".action") with
        | some c => parseAction datatype typ c
        | none => .error (.notFound datatype)

/-- The part of the cache-miss path after name validation: resolve the
package share directory (`get_package_share_directory`, which throws for
an unknown package), then resolve and parse the file. -/
def specForPackage (env : Env) (datatype package typ : String) :
    Except ResolveError MessageSpec :=
  match lookupA env.shareDir package with
  | none => .error (.packageNotFound package)
  | some share_dir =>
    (resolveContents env share_dir typ datatype).map
      (fun c => MessageSpec.make c package)

/-- The cache-miss path of `load_message_spec`: validate the name, look
up the package share directory, resolve the file and build the spec. -/
def compute_spec (env : Env) (datatype : String) : Except ResolveError MessageSpec :=
  match parseDatatype datatype with
  | none => .error (.invalidName datatype)
  | some (package, typ) => specForPackage env datatype package typ

/-- Model of `load_message_spec` from the source: return the cached entry on a
hit; on a miss compute the spec and `emplace` it under the datatype
before returning.  The second component is the cache afterwards; a throw
leaves the cache untouched. -/
def load_message_spec (env : Env) (cache : Cache) (datatype : String) :
    Except ResolveError MessageSpec × Cache :=
  match lookupA cache datatype with
  | some spec => (.ok spec, cache)
  | none =>
    match compute_spec env datatype with
    | .error e => (.error e, cache)
    | .ok spec => (.ok spec, (datatype, spec) :: cache)

/-- The line of eighty equals characters of the separator. -/
def SEPARATOR_LINE : String :=
  (List.replicate 80 '=').asString

/-- The separator block appended before every schema except while the
accumulated document is still empty: a newline, the separator line, the
MSG header naming the datatype, and a newline. -/
def sepBlock (datatype : String) : String :=
  "\n" ++ SEPARATOR_LINE ++ "\nMSG: " ++ datatype ++ "\n"

/-- One body of `append_recursive` before the dependency loop: append the
separator block when the document is nonempty, then the schema text. -/
def appendSchema (acc : String) (datatype text : String) : String :=
  (if acc = "" then acc else acc ++ sepBlock datatype) ++ text

/-- The walk state of `get_full_text`: the accumulated document, the
`seen_deps` set, the cache, and a ghost trace of the (datatype, text)
pairs in emission order (the trace does not influence the computation; it
names the visits for the theorems below). -/
structure WalkSt where
  result : String
  seen : List String
  cache : Cache
  emitted : List (String × String)
deriving Repr

/-- Errors of the walk: a resolve error thrown by `load_message_spec`, or
fuel exhaustion of the model (unreachable for adequate fuel). -/
inductive VisitError where
  | resolve (e : ResolveError)
  | fuelOut
deriving DecidableEq, Repr

/-- The dependency loop of `append_recursive`: try to insert each
dependency into `seen_deps` and recurse into the newly inserted ones. -/
def visitList (f : String → WalkSt → Except VisitError WalkSt) :
    List String → WalkSt → Except VisitError WalkSt
  | [], st => .ok st
  | dep :: rest, st =>
    if dep ∈ st.seen then visitList f rest st
    else
      match f dep { st with seen := dep :: st.seen } with
      | .error e => .error e
      | .ok st2 => visitList f rest st2

/-- Model of `append_recursive` from the source, with fuel counting recursion
depth: load the spec, append the separator block (unless the document is
empty) and the text, then walk the dependency set in its sorted order. -/
def visit (env : Env) : Nat → String → WalkSt → Except VisitError WalkSt
  | 0, _, _ => .error .fuelOut
  | fuel + 1, datatype, st =>
    match load_message_spec env st.cache datatype with
    | (.error e, _) => .error (.resolve e)
    | (.ok spec, cache2) =>
      visitList (fun d s => visit env fuel d s) spec.dependencies
        { result := appendSchema st.result datatype spec.text
          seen := st.seen
          cache := cache2
          emitted := st.emitted ++ [(datatype, spec.text)] }

/-- Version of `get_full_text` with the full final state exposed. -/
def get_full_text_trace (env : Env) (cache : Cache) (root_datatype : String)
    (fuel : Nat) : Except VisitError WalkSt :=
  visit env fuel root_datatype
    { result := "", seen := [root_datatype], cache := cache, emitted := [] }

/-- Model of `get_full_text` from the source: seed `seen_deps` with the root,
recurse, and return the accumulated document (with the cache it leaves
behind). -/
def get_full_text (env : Env) (cache : Cache) (root_datatype : String)
    (fuel : Nat) : Except VisitError (String × Cache) :=
  (get_full_text_trace env cache root_datatype fuel).map
    (fun st => (st.result, st.cache))

/-! ## Concrete scenarios

Small environments exercising the code paths: the worked example of the
specification, a dependency cycle, a diamond, a two-section service file
and a root with an unresolvable dependency. -/

/-- The circle example: a root message with one cross-package
dependency. -/
def circleEnv : Env :=
  { shareDir := [("circle_msgs", "/opt/circle"), ("geometry_msgs", "/opt/geometry")],
    files := [("/opt/circle/msg/Circle.msg",
                "geometry_msgs/Point position\nfloat64 radius\n"),
              ("/opt/geometry/msg/Point.msg",
                "float64 x\nfloat64 y\nfloat64 z\n")] }

/-- A two-node dependency cycle: A references B and B references A. -/
def cycleEnv : Env :=
  { shareDir := [("pkga", "/a"), ("pkgb", "/b")],
    files := [("/a/msg/A.msg", "pkgb/B b\n"), ("/b/msg/B.msg", "pkga/A a\n")] }

/-- A diamond: Root references B and C, both referencing D. -/
def diamondEnv : Env :=
  { shareDir := [("pkg", "/p")],
    files := [("/p/msg/Root.msg", "pkg/B b\npkg/C c\n"),
              ("/p/msg/B.msg", "pkg/D d1\n"),
              ("/p/msg/C.msg", "pkg/D d2\n"),
              ("/p/msg/D.msg", "int32 x\n")] }

/-- A package with one two-section service file `srv/Foo.srv`. -/
def serviceEnv : Env :=
  { shareDir := [("pkg", "/p")],
    files := [("/p/srv/Foo.srv", "int32 a\n---\nint32 b\n")] }

/-- A root message whose single dependency has no backing file. -/
def missingDepEnv : Env :=
  { shareDir := [("pkg", "/p")],
    files := [("/p/msg/Root.msg", "pkg/Missing m\n")] }

/-! ## Generic helper lemmas -/

theorem lookupA_cons_self {α : Type} (k : String) (v : α) (rest : List (String × α)) :
    lookupA ((k, v) :: rest) k = some v := by
  simp [lookupA]

theorem lookupA_mem {α : Type} {l : List (String × α)} {k : String} {v : α}
    (h : lookupA l k = some v) : (k, v) ∈ l := by
  induction l with
  | nil => simp [lookupA] at h
  | cons e rest ih =>
    obtain ⟨k1, v1⟩ := e
    by_cases hk : k1 = k
    · subst hk
      simp [lookupA] at h
      subst h
      exact List.mem_cons_self _ _
    · simp [lookupA, hk] at h
      exact List.mem_cons_of_mem _ (ih h)

/-! ## Claim C4: cache coherence of repeated loads -/

/-- A successful load leaves the loaded entry in the cache. -/
theorem load_ok_lookup {env : Env} {cache : Cache} {d : String}
    {spec : MessageSpec} {cache2 : Cache}
    (h : load_message_spec env cache d = (.ok spec, cache2)) :
    lookupA cache2 d = some spec := by
  unfold load_message_spec at h
  cases hl : lookupA cache d with
  | some s =>
    rw [hl] at h
    cases h
    exact hl
  | none =>
    rw [hl] at h
    cases hc : compute_spec env d with
    | error e => rw [hc] at h; cases h
    | ok s =>
      rw [hc] at h
      cases h
      exact lookupA_cons_self _ _ _

/-- A cache hit answers from the map alone, for any environment. -/
theorem load_hit {cache : Cache} {d : String} {spec : MessageSpec}
    (h : lookupA cache d = some spec) (env : Env) :
    load_message_spec env cache d = (.ok spec, cache) := by
  unfold load_message_spec
  rw [h]

/-- C4: a successful `load_message_spec` inserts the parsed schema under
its datatype before returning, and a repeated call returns the same
schema object with the cache unchanged; the repeat is answered from the
cache alone — it is independent of the environment, so it reads no
file. -/
theorem C4_cache_coherence {env : Env} {cache : Cache} {d : String}
    {spec : MessageSpec} {cache2 : Cache}
    (h : load_message_spec env cache d = (.ok spec, cache2)) :
    lookupA cache2 d = some spec ∧
    ∀ env2 : Env, load_message_spec env2 cache2 d = (.ok spec, cache2) := by
  have hl := load_ok_lookup h
  exact ⟨hl, fun env2 => load_hit hl env2⟩

/-- Witness for C4 at the circle example: the first load of the Point
message succeeds, and the theorem's conclusions evaluate as stated. -/
theorem C4_cache_coherence_witness :
    load_message_spec circleEnv [] "geometry_msgs/Point" =
      (.ok (MessageSpec.make "float64 x\nfloat64 y\nfloat64 z\n" "geometry_msgs"),
        [("geometry_msgs/Point",
          MessageSpec.make "float64 x\nfloat64 y\nfloat64 z\n" "geometry_msgs")]) ∧
    lookupA [("geometry_msgs/Point",
        MessageSpec.make "float64 x\nfloat64 y\nfloat64 z\n" "geometry_msgs")]
        "geometry_msgs/Point" =
      some (MessageSpec.make "float64 x\nfloat64 y\nfloat64 z\n" "geometry_msgs") ∧
    ∀ env2 : Env,
      load_message_spec env2
        [("geometry_msgs/Point",
          MessageSpec.make "float64 x\nfloat64 y\nfloat64 z\n" "geometry_msgs")]
        "geometry_msgs/Point" =
      (.ok (MessageSpec.make "float64 x\nfloat64 y\nfloat64 z\n" "geometry_msgs"),
        [("geometry_msgs/Point",
          MessageSpec.make "float64 x\nfloat64 y\nfloat64 z\n" "geometry_msgs")]) := by
  refine ⟨rfl, ?_⟩
  exact @C4_cache_coherence circleEnv [] "geometry_msgs/Point" _ _ rfl

/-! ## Order facts about the set model -/

theorem char_toNat_inj {a b : Char} (h : a.toNat = b.toNat) : a = b := by
  apply Char.ext_iff.mpr
  apply UInt32.ext_iff.mpr
  exact h

theorem charsLt_irrefl : ∀ l : List Char, charsLt l l = false
  | [] => rfl
  | c :: cs => by
    simp only [charsLt, Nat.lt_irrefl, if_false]
    exact charsLt_irrefl cs

theorem charsLt_trans : ∀ a b c : List Char,
    charsLt a b = true → charsLt b c = true → charsLt a c = true := by
  intro a
  induction a with
  | nil =>
    intro b c hab hbc
    cases b with
    | nil => simp [charsLt] at hab
    | cons y ys =>
      cases c with
      | nil => simp [charsLt] at hbc
      | cons z zs => simp [charsLt]
  | cons x xs ih =>
    intro b c hab hbc
    cases b with
    | nil => simp [charsLt] at hab
    | cons y ys =>
      cases c with
      | nil => simp [charsLt] at hbc
      | cons z zs =>
        simp only [charsLt] at hab hbc ⊢
        by_cases hxy : x.toNat < y.toNat
        · by_cases hyz : y.toNat < z.toNat
          · rw [if_pos (Nat.lt_trans hxy hyz)]
          · rw [if_neg hyz] at hbc
            by_cases hzy : z.toNat < y.toNat
            · rw [if_pos hzy] at hbc; cases hbc
            · have hxz : x.toNat < z.toNat := by omega
              rw [if_pos hxz]
        · rw [if_neg hxy] at hab
          by_cases hyx : y.toNat < x.toNat
          · rw [if_pos hyx] at hab; cases hab
          · rw [if_neg hyx] at hab
            by_cases hyz : y.toNat < z.toNat
            · have hxz : x.toNat < z.toNat := by omega
              rw [if_pos hxz]
            · rw [if_neg hyz] at hbc
              by_cases hzy : z.toNat < y.toNat
              · rw [if_pos hzy] at hbc; cases hbc
              · rw [if_neg hzy] at hbc
                have h1 : ¬ x.toNat < z.toNat := by omega
                have h2 : ¬ z.toNat < x.toNat := by omega
                rw [if_neg h1, if_neg h2]
                exact ih ys zs hab hbc

theorem charsLt_eq_of_both_not : ∀ a b : List Char,
    charsLt a b = false → charsLt b a = false → a = b := by
  intro a
  induction a with
  | nil =>
    intro b hab _
    cases b with
    | nil => rfl
    | cons y ys => simp [charsLt] at hab
  | cons x xs ih =>
    intro b hab hba
    cases b with
    | nil => simp [charsLt] at hba
    | cons y ys =>
      simp only [charsLt] at hab hba
      by_cases hxy : x.toNat < y.toNat
      · rw [if_pos hxy] at hab; cases hab
      · by_cases hyx : y.toNat < x.toNat
        · rw [if_pos hyx] at hba; cases hba
        · rw [if_neg hxy, if_neg hyx] at hab
          rw [if_neg hyx, if_neg hxy] at hba
          have hx : x = y := char_toNat_inj (by omega)
          rw [hx, ih ys hab hba]

theorem strLt_irrefl (s : String) : strLt s s = false :=
  charsLt_irrefl s.data

theorem strLt_trans {a b c : String} (h1 : strLt a b = true)
    (h2 : strLt b c = true) : strLt a c = true :=
  charsLt_trans a.data b.data c.data h1 h2

theorem strLt_rev {a b : String} (h1 : strLt a b = false) (h2 : a ≠ b) :
    strLt b a = true := by
  cases hba : strLt b a with
  | true => rfl
  | false =>
    exact absurd (String.ext (charsLt_eq_of_both_not a.data b.data h1 hba)) h2

theorem strLt_ne {a b : String} (h : strLt a b = true) : a ≠ b := by
  intro he
  rw [he, strLt_irrefl] at h
  cases h

/-- Sortedness invariant of the set model. -/
def SortedStr (l : List String) : Prop :=
  l.Pairwise (fun a b => strLt a b = true)

theorem mem_setInsert (x y : String) : ∀ s : List String,
    y ∈ setInsert s x ↔ y = x ∨ y ∈ s := by
  intro s
  induction s with
  | nil => simp [setInsert]
  | cons z zs ih =>
    simp only [setInsert]
    by_cases h1 : strLt x z = true
    · rw [if_pos h1]
      simp [List.mem_cons]
    · rw [if_neg h1]
      by_cases h2 : x = z
      · rw [if_pos h2]
        subst h2
        simp [List.mem_cons]
      · rw [if_neg h2]
        simp only [List.mem_cons, ih]
        tauto

theorem setInsert_sorted (x : String) : ∀ {s : List String},
    SortedStr s → SortedStr (setInsert s x) := by
  intro s
  induction s with
  | nil =>
    intro _
    simp [setInsert, SortedStr]
  | cons z zs ih =>
    intro hs
    have hz : ∀ b, b ∈ zs → strLt z b = true := (List.pairwise_cons.mp hs).1
    have hzs : SortedStr zs := (List.pairwise_cons.mp hs).2
    simp only [setInsert]
    by_cases h1 : strLt x z = true
    · rw [if_pos h1]
      refine List.pairwise_cons.mpr ⟨?_, hs⟩
      intro b hb
      rcases List.mem_cons.mp hb with hbz | hbzs
      · rw [hbz]; exact h1
      · exact strLt_trans h1 (hz b hbzs)
    · rw [if_neg h1]
      by_cases h2 : x = z
      · rw [if_pos h2]; exact hs
      · rw [if_neg h2]
        refine List.pairwise_cons.mpr ⟨?_, ih hzs⟩
        intro b hb
        rcases (mem_setInsert x b zs).mp hb with hbx | hbzs
        · rw [hbx]
          exact strLt_rev (by simpa using h1) h2
        · exact hz b hbzs

theorem sortedStr_nodup : ∀ {l : List String}, SortedStr l → l.Nodup := by
  intro l h
  exact h.imp (fun hlt => strLt_ne hlt)

/-! ## Facts about dependency extraction -/

theorem qualifyToken_slash {pkg tok d : String}
    (h : qualifyToken pkg tok = some d) : d.data.contains '/' = true := by
  unfold qualifyToken at h
  by_cases hp : tok ∈ PRIMITIVE_TYPES
  · rw [if_pos hp] at h; cases h
  · rw [if_neg hp] at h
    by_cases hc : tok.data.contains '/' = true
    · rw [if_pos hc] at h
      cases h
      exact hc
    · rw [if_neg hc] at h
      cases h
      apply List.elem_eq_true_of_mem
      rw [String.data_append, String.data_append]
      exact List.mem_append_left _ (List.mem_append_right _ (by simp))

theorem mem_depInsert_self {pkg tok d : String} (acc : List String)
    (h : qualifyToken pkg tok = some d) : d ∈ depInsert pkg acc tok := by
  unfold depInsert
  rw [h]
  exact (mem_setInsert d d acc).mpr (Or.inl rfl)

theorem mem_depInsert_mono {pkg tok d : String} {acc : List String}
    (h : d ∈ acc) : d ∈ depInsert pkg acc tok := by
  unfold depInsert
  cases hq : qualifyToken pkg tok with
  | none => exact h
  | some e => exact (mem_setInsert e d acc).mpr (Or.inr h)

theorem mem_depInsert_src {pkg tok d : String} {acc : List String}
    (h : d ∈ depInsert pkg acc tok) :
    d ∈ acc ∨ qualifyToken pkg tok = some d := by
  unfold depInsert at h
  cases hq : qualifyToken pkg tok with
  | none => rw [hq] at h; exact Or.inl h
  | some e =>
    rw [hq] at h
    rcases (mem_setInsert e d acc).mp h with he | ha
    · subst he
      exact Or.inr rfl
    · exact Or.inl ha

theorem depInsert_sorted {pkg tok : String} {acc : List String}
    (h : SortedStr acc) : SortedStr (depInsert pkg acc tok) := by
  unfold depInsert
  cases qualifyToken pkg tok with
  | none => exact h
  | some d => exact setInsert_sorted d h

theorem foldl_depInsert_sorted (pkg : String) : ∀ (toks acc : List String),
    SortedStr acc → SortedStr (toks.foldl (depInsert pkg) acc)
  | [], _, h => h
  | t :: ts, acc, h =>
    foldl_depInsert_sorted pkg ts (depInsert pkg acc t) (depInsert_sorted h)

theorem foldl_depInsert_mono (pkg : String) : ∀ (toks acc : List String)
    (d : String), d ∈ acc → d ∈ toks.foldl (depInsert pkg) acc
  | [], _, _, h => h
  | t :: ts, acc, d, h =>
    foldl_depInsert_mono pkg ts (depInsert pkg acc t) d (mem_depInsert_mono h)

theorem foldl_depInsert_mem (pkg : String) : ∀ (toks acc : List String)
    (tok d : String), tok ∈ toks → qualifyToken pkg tok = some d →
    d ∈ toks.foldl (depInsert pkg) acc := by
  intro toks
  induction toks with
  | nil => intro acc tok d h; cases h
  | cons t ts ih =>
    intro acc tok d hmem hq
    rcases List.mem_cons.mp hmem with he | hts
    · subst he
      exact foldl_depInsert_mono pkg ts _ d (mem_depInsert_self acc hq)
    · exact ih _ tok d hts hq

theorem foldl_depInsert_src (pkg : String) : ∀ (toks acc : List String)
    (d : String), d ∈ toks.foldl (depInsert pkg) acc →
    d ∈ acc ∨ ∃ tok, tok ∈ toks ∧ qualifyToken pkg tok = some d := by
  intro toks
  induction toks with
  | nil => intro acc d h; exact Or.inl h
  | cons t ts ih =>
    intro acc d h
    rcases ih _ d h with hacc | ⟨tok, hmem, hq⟩
    · rcases mem_depInsert_src hacc with ha | hq
      · exact Or.inl ha
      · exact Or.inr ⟨t, List.mem_cons_self t ts, hq⟩
    · exact Or.inr ⟨tok, List.mem_cons_of_mem t hmem, hq⟩

theorem parse_dependencies_src {text pkg d : String}
    (h : d ∈ parse_dependencies text pkg) :
    ∃ tok, tok ∈ scanTokens text ∧ qualifyToken pkg tok = some d := by
  rcases foldl_depInsert_src pkg (scanTokens text) [] d h with hn | he
  · cases hn
  · exact he

/-- Every primitive scalar name has no slash (checked over the fixed
list). -/
theorem primitive_no_slash : ∀ p, p ∈ PRIMITIVE_TYPES →
    p.data.contains '/' = false := by
  intro p hp
  fin_cases hp <;> decide

/-- C5: dependency extraction never yields a primitive scalar token, the
result is a duplicate-free (sorted) set, an extracted non-primitive token
without a slash appears qualified by the package context, and a token
with a slash appears verbatim. -/
theorem C5_dependency_extraction (text package_context : String) :
    (∀ p, p ∈ PRIMITIVE_TYPES → ¬ p ∈ parse_dependencies text package_context) ∧
    (∀ tok, tok ∈ scanTokens text → ¬ tok ∈ PRIMITIVE_TYPES →
      ((tok.data.contains '/' = false →
          (package_context ++ "/" ++ tok) ∈ parse_dependencies text package_context) ∧
        (tok.data.contains '/' = true →
          tok ∈ parse_dependencies text package_context))) ∧
    (parse_dependencies text package_context).Nodup := by
  refine ⟨?_, ?_, ?_⟩
  · intro p hp hmem
    rcases parse_dependencies_src hmem with ⟨tok, _, hq⟩
    have hs := qualifyToken_slash hq
    rw [primitive_no_slash p hp] at hs
    cases hs
  · intro tok hmem hnp
    constructor
    · intro hc
      apply foldl_depInsert_mem package_context (scanTokens text) [] tok _ hmem
      unfold qualifyToken
      rw [if_neg hnp, hc]
      simp
    · intro hc
      apply foldl_depInsert_mem package_context (scanTokens text) [] tok _ hmem
      unfold qualifyToken
      rw [if_neg hnp, hc]
      simp
  · exact sortedStr_nodup
      (foldl_depInsert_sorted package_context (scanTokens text) [] (by simp [SortedStr]))

/-- Witness for C5 on a schema body using a primitive array field, a
qualified reference and a bare same-package reference. -/
theorem C5_dependency_extraction_witness :
    (¬ "int32" ∈ parse_dependencies "int32[] a\npkg2/Msg b\nLocal c\n" "mypkg") ∧
    ("mypkg/Local" ∈ parse_dependencies "int32[] a\npkg2/Msg b\nLocal c\n" "mypkg") ∧
    ("pkg2/Msg" ∈ parse_dependencies "int32[] a\npkg2/Msg b\nLocal c\n" "mypkg") := by
  refine ⟨?_, ?_, ?_⟩
  · exact (C5_dependency_extraction "int32[] a\npkg2/Msg b\nLocal c\n" "mypkg").1
      "int32" (by decide)
  · exact ((C5_dependency_extraction "int32[] a\npkg2/Msg b\nLocal c\n" "mypkg").2.1
      "Local" (by decide) (by decide)).1 (by decide)
  · exact ((C5_dependency_extraction "int32[] a\npkg2/Msg b\nLocal c\n" "mypkg").2.1
      "pkg2/Msg" (by decide) (by decide)).2 (by decide)

/-! ## takeWhile and dropWhile helpers -/

theorem takeWhile_all {α : Type} (p : α → Bool) : ∀ l : List α,
    (∀ c ∈ l, p c = true) → l.takeWhile p = l := by
  intro l
  induction l with
  | nil => intro _; rfl
  | cons a as ih =>
    intro h
    simp only [List.takeWhile, h a (List.mem_cons_self a as)]
    rw [ih (fun c hc => h c (List.mem_cons_of_mem a hc))]

theorem dropWhile_all {α : Type} (p : α → Bool) : ∀ l : List α,
    (∀ c ∈ l, p c = true) → l.dropWhile p = [] := by
  intro l
  induction l with
  | nil => intro _; rfl
  | cons a as ih =>
    intro h
    simp only [List.dropWhile, h a (List.mem_cons_self a as)]
    exact ih (fun c hc => h c (List.mem_cons_of_mem a hc))

theorem takeWhile_append_stop {α : Type} (p : α → Bool) :
    ∀ (pre : List α) (c : α) (post : List α),
    (∀ b ∈ pre, p b = true) → p c = false →
    (pre ++ c :: post).takeWhile p = pre := by
  intro pre
  induction pre with
  | nil =>
    intro c post _ hc
    simp [List.takeWhile, hc]
  | cons a as ih =>
    intro c post h hc
    simp only [List.cons_append, List.takeWhile, h a (List.mem_cons_self a as)]
    exact congrArg (a :: .) (ih c post (fun b hb => h b (List.mem_cons_of_mem a hb)) hc)

theorem dropWhile_append_stop {α : Type} (p : α → Bool) :
    ∀ (pre : List α) (c : α) (post : List α),
    (∀ b ∈ pre, p b = true) → p c = false →
    (pre ++ c :: post).dropWhile p = c :: post := by
  intro pre
  induction pre with
  | nil =>
    intro c post _ hc
    simp [List.dropWhile, hc]
  | cons a as ih =>
    intro c post h hc
    simp only [List.cons_append, List.dropWhile, h a (List.mem_cons_self a as)]
    exact ih c post (fun b hb => h b (List.mem_cons_of_mem a hb)) hc

theorem isEmpty_false_of_ne {α : Type} {l : List α} (h : l ≠ []) :
    l.isEmpty = false := by
  cases l with
  | nil => exact absurd rfl h
  | cons a as => rfl

/-! ## Claim C6: order of the file-resolution fallback chain -/

/-- C6: the resolver tries the four candidate files in the fixed order
and takes the first one that exists, the two .msg candidates being read
whole, the .srv and .action candidates going through section splitting;
when no candidate exists it fails with the not-found error; the container
base name is the type name cut at its first underscore (the whole name
when it has none). -/
theorem C6_resolution_order (env : Env) (D typ d : String) :
    (∀ c, lookupA env.files (D ++ "/msg/" ++ typ ++ ".msg") = some c →
      resolveContents env D typ d = .ok c) ∧
    (lookupA env.files (D ++ "/msg/" ++ typ ++ ".msg") = none →
      ∀ c, lookupA env.files (D ++ "/srv/" ++ typ ++ ".msg") = some c →
      resolveContents env D typ d = .ok c) ∧
    (lookupA env.files (D ++ "/msg/" ++ typ ++ ".msg") = none →
      lookupA env.files (D ++ "/srv/" ++ typ ++ ".msg") = none →
      ∀ c, lookupA env.files (D ++ "/srv/" ++ typTrunc typ ++ ".srv") = some c →
      resolveContents env D typ d = parseService d typ c) ∧
    (lookupA env.files (D ++ "/msg/" ++ typ ++ ".msg") = none →
      lookupA env.files (D ++ "/srv/" ++ typ ++ ".msg") = none →
      lookupA env.files (D ++ "/srv/" ++ typTrunc typ ++ ".srv") = none →
      ∀ c, lookupA env.files (D ++ "/action/" ++ typTrunc typ ++ ".action") = some c →
      resolveContents env D typ d = parseAction d typ c) ∧
    (lookupA env.files (D ++ "/msg/" ++ typ ++ ".msg") = none →
      lookupA env.files (D ++ "/srv/" ++ typ ++ ".msg") = none →
      lookupA env.files (D ++ "/srv/" ++ typTrunc typ ++ ".srv") = none →
      lookupA env.files (D ++ "/action/" ++ typTrunc typ ++ ".action") = none →
      resolveContents env D typ d = .error (.notFound d)) ∧
    (∀ pre post : List Char, typ.data = pre ++ '_' :: post →
      (∀ b ∈ pre, ¬ b = '_') → typTrunc typ = pre.asString) ∧
    ((∀ b ∈ typ.data, ¬ b = '_') → typTrunc typ = typ) := by
  refine ⟨?_, ?_, ?_, ?_, ?_, ?_, ?_⟩
  · intro c h1
    unfold resolveContents
    rw [h1]
  · intro h1 c h2
    unfold resolveContents
    rw [h1, h2]
  · intro h1 h2 c h3
    unfold resolveContents
    rw [h1, h2, h3]
  · intro h1 h2 h3 c h4
    unfold resolveContents
    rw [h1, h2, h3, h4]
  · intro h1 h2 h3 h4
    unfold resolveContents
    rw [h1, h2, h3, h4]
  · intro pre post he hpre
    unfold typTrunc
    rw [he, takeWhile_append_stop _ pre '_' post ?_ (by simp)]
    intro b hb
    simp [hpre b hb]
  · intro h
    unfold typTrunc
    rw [takeWhile_all _ typ.data (fun b hb => by simp [h b hb])]
    rfl

/-- Witness for C6: concrete instances of the chain conjuncts — the msg
branch on the circle example, the not-found exit, and both underscore
behaviors of the base-name cut. -/
theorem C6_resolution_order_witness :
    resolveContents circleEnv "/opt/circle" "Circle" "circle_msgs/Circle" =
      .ok "geometry_msgs/Point position\nfloat64 radius\n" ∧
    resolveContents circleEnv "/opt/circle" "Nope" "circle_msgs/Nope" =
      .error (.notFound "circle_msgs/Nope") ∧
    typTrunc "Nav_Feedback" = "Nav" ∧
    typTrunc "Point" = "Point" := by
  refine ⟨?_, ?_, ?_, ?_⟩
  · exact (C6_resolution_order circleEnv "/opt/circle" "Circle" "circle_msgs/Circle").1
      "geometry_msgs/Point position\nfloat64 radius\n" (by decide)
  · exact (C6_resolution_order circleEnv "/opt/circle" "Nope" "circle_msgs/Nope").2.2.2.2.1
      (by decide) (by decide) (by decide) (by decide)
  · exact (C6_resolution_order circleEnv "/x" "Nav_Feedback" "d").2.2.2.2.2.1
      ['N', 'a', 'v'] ['F', 'e', 'e', 'd', 'b', 'a', 'c', 'k'] (by decide) (by decide)
  · exact (C6_resolution_order circleEnv "/x" "Point" "d").2.2.2.2.2.2 (by decide)

/-! ## Claim C7: container splitting and section selection -/

/-- Counterexample to C7 as stated: the claim says the selector
`_Response` picks section one of a two-section service file and that a
selector matching no convention fails with the malformed-container
error.  The code tests only the substrings `_Request` and `_Result`; for
the datatype `pkg/Foo_Response` it succeeds with an empty body — neither
the claimed section text nor an error — and the full load succeeds with
an empty schema. -/
theorem C7_counterexample :
    parseService "pkg/Foo_Response" "Foo_Response" "int32 a\n---\nint32 b\n" =
      .ok "" ∧
    (splitDashes ("int32 a\n---\nint32 b\n").data).length = 2 ∧
    ((splitDashes ("int32 a\n---\nint32 b\n").data).getD 1 []).asString =
      "\nint32 b\n" ∧
    ("" : String) ≠ "\nint32 b\n" ∧
    (load_message_spec serviceEnv [] "pkg/Foo_Response").1 =
      .ok { dependencies := [], text := "" } := by
  refine ⟨rfl, rfl, rfl, by decide, rfl⟩

/-- C7 amended: splitting a found .srv file on `---` must yield exactly
two sections and a found .action file exactly three, any other count
failing with the malformed-container error (never a truncated or default
body); the sections are then selected by searching the type segment for
the substrings `_Request` (section zero) then `_Result` (section one)
for services, and `_Goal`, `_Result`, `_Feedback` (sections zero, one,
two, tested in that order) for actions; a type segment containing none
of the tested substrings (`_Response` among them) yields an empty body
instead of an error. -/
theorem C7_amended (d typ content : String) :
    ((splitDashes content.data).length ≠ 2 →
      parseService d typ content = .error (.malformedService d)) ∧
    ((splitDashes content.data).length = 2 →
      containsSub "_Request".data typ.data = true →
      parseService d typ content =
        .ok ((splitDashes content.data).getD 0 []).asString) ∧
    ((splitDashes content.data).length = 2 →
      containsSub "_Request".data typ.data = false →
      containsSub "_Result".data typ.data = true →
      parseService d typ content =
        .ok ((splitDashes content.data).getD 1 []).asString) ∧
    ((splitDashes content.data).length = 2 →
      containsSub "_Request".data typ.data = false →
      containsSub "_Result".data typ.data = false →
      parseService d typ content = .ok "") ∧
    ((splitDashes content.data).length ≠ 3 →
      parseAction d typ content = .error (.malformedAction d)) ∧
    ((splitDashes content.data).length = 3 →
      containsSub "_Goal".data typ.data = true →
      parseAction d typ content =
        .ok ((splitDashes content.data).getD 0 []).asString) ∧
    ((splitDashes content.data).length = 3 →
      containsSub "_Goal".data typ.data = false →
      containsSub "_Result".data typ.data = true →
      parseAction d typ content =
        .ok ((splitDashes content.data).getD 1 []).asString) ∧
    ((splitDashes content.data).length = 3 →
      containsSub "_Goal".data typ.data = false →
      containsSub "_Result".data typ.data = false →
      containsSub "_Feedback".data typ.data = true →
      parseAction d typ content =
        .ok ((splitDashes content.data).getD 2 []).asString) ∧
    ((splitDashes content.data).length = 3 →
      containsSub "_Goal".data typ.data = false →
      containsSub "_Result".data typ.data = false →
      containsSub "_Feedback".data typ.data = false →
      parseAction d typ content = .ok "") := by
  refine ⟨?_, ?_, ?_, ?_, ?_, ?_, ?_, ?_, ?_⟩
  · intro h
    unfold parseService
    rw [if_neg h]
  · intro h2 hr
    unfold parseService
    rw [if_pos h2, hr]
    simp
  · intro h2 hr1 hr2
    unfold parseService
    rw [if_pos h2, hr1, hr2]
    simp
  · intro h2 hr1 hr2
    unfold parseService
    rw [if_pos h2, hr1, hr2]
    simp
  · intro h
    unfold parseAction
    rw [if_neg h]
  · intro h3 hg
    unfold parseAction
    rw [if_pos h3, hg]
    simp
  · intro h3 hg hr
    unfold parseAction
    rw [if_pos h3, hg, hr]
    simp
  · intro h3 hg hr hf
    unfold parseAction
    rw [if_pos h3, hg, hr, hf]
    simp
  · intro h3 hg hr hf
    unfold parseAction
    rw [if_pos h3, hg, hr, hf]
    simp

/-- Witness for C7 amended: the malformed single-section service file,
the request and result selections, the empty fallback, and an action
feedback selection, all on concrete files. -/
theorem C7_amended_witness :
    parseService "pkg/Bad_Request" "Bad_Request" "int32 a\n" =
      .error (.malformedService "pkg/Bad_Request") ∧
    parseService "pkg/Foo_Request" "Foo_Request" "int32 a\n---\nint32 b\n" =
      .ok "int32 a\n" ∧
    parseService "pkg/Foo_Result" "Foo_Result" "int32 a\n---\nint32 b\n" =
      .ok "\nint32 b\n" ∧
    parseService "pkg/Foo_Response" "Foo_Response" "int32 a\n---\nint32 b\n" =
      .ok "" ∧
    parseAction "pkg/Nav_Feedback" "Nav_Feedback" "g1\n---\nr1\n---\nf1\n" =
      .ok "\nf1\n" := by
  refine ⟨?_, ?_, ?_, ?_, ?_⟩
  · exact (C7_amended "pkg/Bad_Request" "Bad_Request" "int32 a\n").1 (by decide)
  · exact (C7_amended "pkg/Foo_Request" "Foo_Request" "int32 a\n---\nint32 b\n").2.1
      (by decide) (by decide)
  · exact (C7_amended "pkg/Foo_Result" "Foo_Result" "int32 a\n---\nint32 b\n").2.2.1
      (by decide) (by decide) (by decide)
  · exact (C7_amended "pkg/Foo_Response" "Foo_Response" "int32 a\n---\nint32 b\n").2.2.2.1
      (by decide) (by decide) (by decide)
  · exact (C7_amended "pkg/Nav_Feedback" "Nav_Feedback" "g1\n---\nr1\n---\nf1\n").2.2.2.2.2.2.2.1
      (by decide) (by decide) (by decide) (by decide)

/-! ## Claim C8: datatype-name validation -/

/-- A nonempty run of the characters allowed in a package or type
segment. -/
def validName (s : String) : Prop :=
  s.data ≠ [] ∧ ∀ c ∈ s.data, isNameChar c = true

/-- The shape required of a datatype string by the specification: two
valid segments, optionally separated by one of the three category
infixes; the package is the first segment and the type the last. -/
def GoodShape (s p t : String) : Prop :=
  validName p ∧ validName t ∧
    (s = p ++ "/" ++ t ∨
      ∃ i, (i = "msg" ∨ i = "srv" ∨ i = "action") ∧
        s = p ++ "/" ++ i ++ "/" ++ t)

theorem parseType_some {cs t : List Char} (h : parseType cs = some t) :
    cs = t ∧ t ≠ [] ∧ ∀ c ∈ t, isNameChar c = true := by
  unfold parseType at h
  cases h1 : (cs.takeWhile isNameChar).isEmpty with
  | true => simp [h1] at h
  | false =>
    simp only [h1, Bool.false_eq_true, if_false] at h
    cases h2 : (cs.dropWhile isNameChar).isEmpty with
    | false => simp [h2] at h
    | true =>
      simp only [h2, if_true] at h
      injection h with h3
      subst h3
      have hd : cs.dropWhile isNameChar = [] := by
        cases hcase : cs.dropWhile isNameChar with
        | nil => rfl
        | cons a as => rw [hcase] at h2; cases h2
      refine ⟨?_, ?_, ?_⟩
      · conv_lhs => rw [(List.takeWhile_append_dropWhile isNameChar cs).symm]
        rw [hd, List.append_nil]
      · intro he
        rw [he] at h1
        cases h1
      · intro c hc
        exact List.mem_takeWhile_imp hc

theorem parseType_all {t : List Char} (h1 : t ≠ [])
    (h2 : ∀ c ∈ t, isNameChar c = true) : parseType t = some t := by
  unfold parseType
  rw [takeWhile_all _ t h2, dropWhile_all _ t h2, isEmpty_false_of_ne h1]
  simp

theorem prefix_slash_mem {pat l : List Char} (hmem : '/' ∈ pat)
    (h : pat.isPrefixOf l = true) : '/' ∈ l := by
  rcases List.isPrefixOf_iff_prefix.mp h with ⟨u, hu⟩
  rw [hu.symm]
  exact List.mem_append_left u hmem

theorem parseTail_plain {t : List Char} (h1 : t ≠ [])
    (h2 : ∀ c ∈ t, isNameChar c = true) : parseTail t = some t := by
  have hns : ¬ '/' ∈ t := by
    intro hm
    have := h2 '/' hm
    simp [isNameChar] at this
  have hp1 : List.isPrefixOf ['m', 's', 'g', '/'] t = false := by
    cases hx : List.isPrefixOf ['m', 's', 'g', '/'] t with
    | false => rfl
    | true => exact absurd (prefix_slash_mem (by decide) hx) hns
  have hp2 : List.isPrefixOf ['s', 'r', 'v', '/'] t = false := by
    cases hx : List.isPrefixOf ['s', 'r', 'v', '/'] t with
    | false => rfl
    | true => exact absurd (prefix_slash_mem (by decide) hx) hns
  have hp3 : List.isPrefixOf ['a', 'c', 't', 'i', 'o', 'n', '/'] t = false := by
    cases hx : List.isPrefixOf ['a', 'c', 't', 'i', 'o', 'n', '/'] t with
    | false => rfl
    | true => exact absurd (prefix_slash_mem (by decide) hx) hns
  unfold parseTail
  rw [hp1, hp2, hp3]
  simp only [Bool.false_eq_true, if_false]
  exact parseType_all h1 h2

theorem parseTail_msg {t : List Char} (h1 : t ≠ [])
    (h2 : ∀ c ∈ t, isNameChar c = true) :
    parseTail ('m' :: 's' :: 'g' :: '/' :: t) = some t := by
  unfold parseTail
  have hp : List.isPrefixOf ['m', 's', 'g', '/'] ('m' :: 's' :: 'g' :: '/' :: t) = true :=
    List.isPrefixOf_iff_prefix.mpr ⟨t, rfl⟩
  rw [hp]
  simp only [if_true, List.drop_succ_cons, List.drop_zero]
  rw [parseType_all h1 h2]
  rfl

theorem parseTail_srv {t : List Char} (h1 : t ≠ [])
    (h2 : ∀ c ∈ t, isNameChar c = true) :
    parseTail ('s' :: 'r' :: 'v' :: '/' :: t) = some t := by
  unfold parseTail
  have hp0 : List.isPrefixOf ['m', 's', 'g', '/'] ('s' :: 'r' :: 'v' :: '/' :: t) = false := by
    simp [List.isPrefixOf]
  have hp : List.isPrefixOf ['s', 'r', 'v', '/'] ('s' :: 'r' :: 'v' :: '/' :: t) = true :=
    List.isPrefixOf_iff_prefix.mpr ⟨t, rfl⟩
  rw [hp0, hp]
  simp only [Bool.false_eq_true, if_false, if_true, List.drop_succ_cons, List.drop_zero]
  rw [parseType_all h1 h2]
  rfl

theorem parseTail_action {t : List Char} (h1 : t ≠ [])
    (h2 : ∀ c ∈ t, isNameChar c = true) :
    parseTail ('a' :: 'c' :: 't' :: 'i' :: 'o' :: 'n' :: '/' :: t) = some t := by
  unfold parseTail
  have hp0 : List.isPrefixOf ['m', 's', 'g', '/']
      ('a' :: 'c' :: 't' :: 'i' :: 'o' :: 'n' :: '/' :: t) = false := by
    simp [List.isPrefixOf]
  have hp1 : List.isPrefixOf ['s', 'r', 'v', '/']
      ('a' :: 'c' :: 't' :: 'i' :: 'o' :: 'n' :: '/' :: t) = false := by
    simp [List.isPrefixOf]
  have hp : List.isPrefixOf ['a', 'c', 't', 'i', 'o', 'n', '/']
      ('a' :: 'c' :: 't' :: 'i' :: 'o' :: 'n' :: '/' :: t) = true :=
    List.isPrefixOf_iff_prefix.mpr ⟨t, rfl⟩
  rw [hp0, hp1, hp]
  simp only [Bool.false_eq_true, if_false, if_true, List.drop_succ_cons, List.drop_zero]
  rw [parseType_all h1 h2]
  rfl

theorem parseTail_some {rest t : List Char} (h : parseTail rest = some t) :
    (rest = t ∨ rest = 'm' :: 's' :: 'g' :: '/' :: t ∨
      rest = 's' :: 'r' :: 'v' :: '/' :: t ∨
      rest = 'a' :: 'c' :: 't' :: 'i' :: 'o' :: 'n' :: '/' :: t) ∧
    t ≠ [] ∧ ∀ c ∈ t, isNameChar c = true := by
  unfold parseTail at h
  cases hp1 : List.isPrefixOf ['m', 's', 'g', '/'] rest with
  | true =>
    rw [hp1] at h
    simp only [if_true] at h
    rcases List.isPrefixOf_iff_prefix.mp hp1 with ⟨u, hu⟩
    cases hdrop : parseType (rest.drop 4) with
    | some t1 =>
      rw [hdrop] at h
      simp only [Option.orElse] at h
      injection h with h
      subst h
      have hu4 : rest.drop 4 = u := by rw [hu.symm]; rfl
      rw [hu4] at hdrop
      obtain ⟨he, hne, hch⟩ := parseType_some hdrop
      subst he
      exact ⟨Or.inr (Or.inl hu.symm), hne, hch⟩
    | none =>
      rw [hdrop] at h
      simp only [Option.orElse] at h
      obtain ⟨he, hne, hch⟩ := parseType_some h
      subst he
      exfalso
      have : '/' ∈ rest := prefix_slash_mem (by decide) hp1
      have := hch '/' this
      simp [isNameChar] at this
  | false =>
    rw [hp1] at h
    simp only [Bool.false_eq_true, if_false] at h
    cases hp2 : List.isPrefixOf ['s', 'r', 'v', '/'] rest with
    | true =>
      rw [hp2] at h
      simp only [if_true] at h
      rcases List.isPrefixOf_iff_prefix.mp hp2 with ⟨u, hu⟩
      cases hdrop : parseType (rest.drop 4) with
      | some t1 =>
        rw [hdrop] at h
        simp only [Option.orElse] at h
        injection h with h
        subst h
        have hu4 : rest.drop 4 = u := by rw [hu.symm]; rfl
        rw [hu4] at hdrop
        obtain ⟨he, hne, hch⟩ := parseType_some hdrop
        subst he
        exact ⟨Or.inr (Or.inr (Or.inl hu.symm)), hne, hch⟩
      | none =>
        rw [hdrop] at h
        simp only [Option.orElse] at h
        obtain ⟨he, hne, hch⟩ := parseType_some h
        subst he
        exfalso
        have : '/' ∈ rest := prefix_slash_mem (by decide) hp2
        have := hch '/' this
        simp [isNameChar] at this
    | false =>
      rw [hp2] at h
      simp only [Bool.false_eq_true, if_false] at h
      cases hp3 : List.isPrefixOf ['a', 'c', 't', 'i', 'o', 'n', '/'] rest with
      | true =>
        rw [hp3] at h
        simp only [if_true] at h
        rcases List.isPrefixOf_iff_prefix.mp hp3 with ⟨u, hu⟩
        cases hdrop : parseType (rest.drop 7) with
        | some t1 =>
          rw [hdrop] at h
          simp only [Option.orElse] at h
          injection h with h
          subst h
          have hu7 : rest.drop 7 = u := by rw [hu.symm]; rfl
          rw [hu7] at hdrop
          obtain ⟨he, hne, hch⟩ := parseType_some hdrop
          subst he
          exact ⟨Or.inr (Or.inr (Or.inr hu.symm)), hne, hch⟩
        | none =>
          rw [hdrop] at h
          simp only [Option.orElse] at h
          obtain ⟨he, hne, hch⟩ := parseType_some h
          subst he
          exfalso
          have : '/' ∈ rest := prefix_slash_mem (by decide) hp3
          have := hch '/' this
          simp [isNameChar] at this
      | false =>
        rw [hp3] at h
        simp only [Bool.false_eq_true, if_false] at h
        obtain ⟨he, hne, hch⟩ := parseType_some h
        subst he
        exact ⟨Or.inl rfl, hne, hch⟩

theorem slash_data : ("/" : String).data = ['/'] := rfl

theorem msg_data : ("msg" : String).data = ['m', 's', 'g'] := rfl

theorem srv_data : ("srv" : String).data = ['s', 'r', 'v'] := rfl

theorem action_data : ("action" : String).data = ['a', 'c', 't', 'i', 'o', 'n'] := rfl

theorem asString_data (l : List Char) : (l.asString).data = l := rfl

theorem ne_nil_of_isEmpty_false {α : Type} {l : List α}
    (h : l.isEmpty = false) : l ≠ [] := by
  intro he
  rw [he] at h
  cases h

theorem parseDatatype_shape {s p t : String}
    (h : parseDatatype s = some (p, t)) : GoodShape s p t := by
  unfold parseDatatype at h
  cases hd : s.data.dropWhile isNameChar with
  | nil =>
    rw [hd] at h
    simp [parseSlash] at h
  | cons c rest =>
    rw [hd] at h
    simp only [parseSlash] at h
    by_cases hc : c = '/'
    case neg => rw [if_neg hc] at h; cases h
    case pos =>
      subst hc
      rw [if_pos rfl] at h
      cases he : (s.data.takeWhile isNameChar).isEmpty with
      | true => simp [he] at h
      | false =>
        simp only [he, Bool.false_eq_true, if_false] at h
        cases hpt : parseTail rest with
        | none => rw [hpt] at h; cases h
        | some t1 =>
          rw [hpt] at h
          simp only [Option.map] at h
          injection h with h2
          rw [Prod.mk.injEq] at h2
          obtain ⟨hp, ht⟩ := h2
          have hpd : p.data = s.data.takeWhile isNameChar := by
            rw [← hp]; exact asString_data _
          have htd : t.data = t1 := by
            rw [← ht]; exact asString_data _
          have hsplit : s.data = s.data.takeWhile isNameChar ++ '/' :: rest := by
            rw [← hd]
            exact (List.takeWhile_append_dropWhile isNameChar s.data).symm
          obtain ⟨hshape, htne, htch⟩ := parseTail_some hpt
          refine ⟨⟨?_, ?_⟩, ⟨?_, ?_⟩, ?_⟩
          · rw [hpd]; exact ne_nil_of_isEmpty_false he
          · intro x hx
            rw [hpd] at hx
            exact List.mem_takeWhile_imp hx
          · rw [htd]; exact htne
          · intro x hx
            rw [htd] at hx
            exact htch x hx
          · rcases hshape with h4 | h4 | h4 | h4
            · refine Or.inl (String.ext ?_)
              rw [hsplit, h4, String.data_append, String.data_append,
                hpd, htd, slash_data]
              simp [List.append_assoc]
            · refine Or.inr ⟨"msg", Or.inl rfl, String.ext ?_⟩
              rw [hsplit, h4, String.data_append, String.data_append,
                String.data_append, String.data_append,
                hpd, htd, slash_data, msg_data]
              simp [List.append_assoc]
            · refine Or.inr ⟨"srv", Or.inr (Or.inl rfl), String.ext ?_⟩
              rw [hsplit, h4, String.data_append, String.data_append,
                String.data_append, String.data_append,
                hpd, htd, slash_data, srv_data]
              simp [List.append_assoc]
            · refine Or.inr ⟨"action", Or.inr (Or.inr rfl), String.ext ?_⟩
              rw [hsplit, h4, String.data_append, String.data_append,
                String.data_append, String.data_append,
                hpd, htd, slash_data, action_data]
              simp [List.append_assoc]

theorem shape_parseDatatype {s p t : String} (h : GoodShape s p t) :
    parseDatatype s = some (p, t) := by
  obtain ⟨⟨hpne, hpch⟩, ⟨htne, htch⟩, hcase⟩ := h
  have hslash : isNameChar '/' = false := by decide
  rcases hcase with h2 | ⟨i, hi, h3⟩
  · have hsd : s.data = p.data ++ '/' :: t.data := by
      rw [h2, String.data_append, String.data_append, slash_data]
      simp [List.append_assoc]
    have htake : s.data.takeWhile isNameChar = p.data := by
      rw [hsd]; exact takeWhile_append_stop _ p.data '/' t.data hpch hslash
    have hdrop : s.data.dropWhile isNameChar = '/' :: t.data := by
      rw [hsd]; exact dropWhile_append_stop _ p.data '/' t.data hpch hslash
    unfold parseDatatype
    rw [hdrop, htake]
    simp only [parseSlash, if_true]
    rw [isEmpty_false_of_ne hpne]
    simp only [Bool.false_eq_true, if_false]
    rw [parseTail_plain htne htch]
    rfl
  · rcases hi with hi | hi | hi
    · subst hi
      have hsd : s.data = p.data ++ '/' :: ('m' :: 's' :: 'g' :: '/' :: t.data) := by
        rw [h3, String.data_append, String.data_append, String.data_append,
          String.data_append, slash_data, msg_data]
        simp [List.append_assoc]
      have htake : s.data.takeWhile isNameChar = p.data := by
        rw [hsd]; exact takeWhile_append_stop _ p.data '/' _ hpch hslash
      have hdrop : s.data.dropWhile isNameChar =
          '/' :: ('m' :: 's' :: 'g' :: '/' :: t.data) := by
        rw [hsd]; exact dropWhile_append_stop _ p.data '/' _ hpch hslash
      unfold parseDatatype
      rw [hdrop, htake]
      simp only [parseSlash, if_true]
      rw [isEmpty_false_of_ne hpne]
      simp only [Bool.false_eq_true, if_false]
      rw [parseTail_msg htne htch]
      rfl
    · subst hi
      have hsd : s.data = p.data ++ '/' :: ('s' :: 'r' :: 'v' :: '/' :: t.data) := by
        rw [h3, String.data_append, String.data_append, String.data_append,
          String.data_append, slash_data, srv_data]
        simp [List.append_assoc]
      have htake : s.data.takeWhile isNameChar = p.data := by
        rw [hsd]; exact takeWhile_append_stop _ p.data '/' _ hpch hslash
      have hdrop : s.data.dropWhile isNameChar =
          '/' :: ('s' :: 'r' :: 'v' :: '/' :: t.data) := by
        rw [hsd]; exact dropWhile_append_stop _ p.data '/' _ hpch hslash
      unfold parseDatatype
      rw [hdrop, htake]
      simp only [parseSlash, if_true]
      rw [isEmpty_false_of_ne hpne]
      simp only [Bool.false_eq_true, if_false]
      rw [parseTail_srv htne htch]
      rfl
    · subst hi
      have hsd : s.data = p.data ++ '/' ::
          ('a' :: 'c' :: 't' :: 'i' :: 'o' :: 'n' :: '/' :: t.data) := by
        rw [h3, String.data_append, String.data_append, String.data_append,
          String.data_append, slash_data, action_data]
        simp [List.append_assoc]
      have htake : s.data.takeWhile isNameChar = p.data := by
        rw [hsd]; exact takeWhile_append_stop _ p.data '/' _ hpch hslash
      have hdrop : s.data.dropWhile isNameChar =
          '/' :: ('a' :: 'c' :: 't' :: 'i' :: 'o' :: 'n' :: '/' :: t.data) := by
        rw [hsd]; exact dropWhile_append_stop _ p.data '/' _ hpch hslash
      unfold parseDatatype
      rw [hdrop, htake]
      simp only [parseSlash, if_true]
      rw [isEmpty_false_of_ne hpne]
      simp only [Bool.false_eq_true, if_false]
      rw [parseTail_action htne htch]
      rfl

theorem parseService_error {d typ content : String} {e : ResolveError}
    (h : parseService d typ content = .error e) : e = .malformedService d := by
  unfold parseService at h
  by_cases hl : (splitDashes content.data).length = 2
  · rw [if_pos hl] at h; cases h
  · rw [if_neg hl] at h
    injection h with h2
    exact h2.symm

theorem parseAction_error {d typ content : String} {e : ResolveError}
    (h : parseAction d typ content = .error e) : e = .malformedAction d := by
  unfold parseAction at h
  by_cases hl : (splitDashes content.data).length = 3
  · rw [if_pos hl] at h; cases h
  · rw [if_neg hl] at h
    injection h with h2
    exact h2.symm

theorem resolveContents_error {env : Env} {D typ d : String} {e : ResolveError}
    (h : resolveContents env D typ d = .error e) :
    e = .notFound d ∨ e = .malformedService d ∨ e = .malformedAction d := by
  unfold resolveContents at h
  cases h1 : lookupA env.files (D ++ "/msg/" ++ typ ++ ".msg") with
  | some c => rw [h1] at h; cases h
  | none =>
    rw [h1] at h
    cases h2 : lookupA env.files (D ++ "/srv/" ++ typ ++ ".msg") with
    | some c => rw [h2] at h; cases h
    | none =>
      rw [h2] at h
      cases h3 : lookupA env.files (D ++ "/srv/" ++ typTrunc typ ++ ".srv") with
      | some c =>
        rw [h3] at h
        exact Or.inr (Or.inl (parseService_error h))
      | none =>
        rw [h3] at h
        cases h4 : lookupA env.files (D ++ "/action/" ++ typTrunc typ ++ ".action") with
        | some c =>
          rw [h4] at h
          exact Or.inr (Or.inr (parseAction_error h))
        | none =>
          rw [h4] at h
          injection h with h5
          exact Or.inl h5.symm

theorem specForPackage_not_invalid {env : Env} {datatype package typ x : String}
    (h : specForPackage env datatype package typ = .error (.invalidName x)) :
    False := by
  cases hsd : lookupA env.shareDir package with
  | none =>
    have hsf : specForPackage env datatype package typ =
        .error (.packageNotFound package) := by
      unfold specForPackage
      rw [hsd]
    rw [hsf] at h
    simp at h
  | some D =>
    have hsf : specForPackage env datatype package typ =
        (resolveContents env D typ datatype).map
          (fun c => MessageSpec.make c package) := by
      unfold specForPackage
      rw [hsd]
    rw [hsf] at h
    cases hrc : resolveContents env D typ datatype with
    | error e =>
      rw [hrc] at h
      injection h with h2
      rcases resolveContents_error hrc with he | he | he <;> rw [he] at h2 <;> cases h2
    | ok c =>
      rw [hrc] at h
      cases h

/-- C8: a datatype string parses to captures (package, type) exactly
when it has the two-segment shape with an optional msg, srv or action
infix and name-character segments, the package being the first segment
and the type the last; and, for a datatype not answered from the cache,
`load_message_spec` fails with the invalid-name error exactly when the
string fails that pattern. -/
theorem C8_name_validation (s : String) :
    (∀ p t, parseDatatype s = some (p, t) ↔ GoodShape s p t) ∧
    (∀ (env : Env) (cache : Cache), lookupA cache s = none →
      ((load_message_spec env cache s).1 = .error (.invalidName s) ↔
        parseDatatype s = none)) := by
  constructor
  · intro p t
    exact ⟨parseDatatype_shape, shape_parseDatatype⟩
  · intro env cache hcache
    constructor
    · intro h
      cases hp : parseDatatype s with
      | none => rfl
      | some pt =>
        obtain ⟨p, t⟩ := pt
        exfalso
        unfold load_message_spec at h
        rw [hcache] at h
        have hcs : compute_spec env s = specForPackage env s p t := by
          unfold compute_spec
          rw [hp]
        rw [hcs] at h
        cases hs2 : specForPackage env s p t with
        | error e =>
          rw [hs2] at h
          injection h with h3
          rw [h3] at hs2
          exact specForPackage_not_invalid hs2
        | ok spec =>
          rw [hs2] at h
          cases h
    · intro h
      unfold load_message_spec
      rw [hcache]
      have hcs : compute_spec env s = .error (.invalidName s) := by
        unfold compute_spec
        rw [h]
      rw [hcs]

/-- Witness for C8: the circle datatype parses to its two segments and
therefore has the required shape; an infixed name parses the same way;
and the slashless string fails the pattern, making the load fail with
the invalid-name error. -/
theorem C8_name_validation_witness :
    GoodShape "circle_msgs/Circle" "circle_msgs" "Circle" ∧
    GoodShape "pkg/msg/Foo" "pkg" "Foo" ∧
    (load_message_spec circleEnv [] "badname").1 =
      .error (.invalidName "badname") := by
  refine ⟨?_, ?_, ?_⟩
  · exact ((C8_name_validation "circle_msgs/Circle").1 "circle_msgs" "Circle").mp rfl
  · exact ((C8_name_validation "pkg/msg/Foo").1 "pkg" "Foo").mp rfl
  · exact ((C8_name_validation "badname").2 circleEnv [] rfl).mpr rfl

/-! ## The walk: unfolding bridges and the rendering of the document -/

theorem visit_ok_unfold (env : Env) (fuel : Nat) (d : String) (st : WalkSt)
    (spec : MessageSpec) (c2 : Cache)
    (hl : load_message_spec env st.cache d = (.ok spec, c2)) :
    visit env (fuel + 1) d st =
      visitList (fun d2 s2 => visit env fuel d2 s2) spec.dependencies
        { result := appendSchema st.result d spec.text, seen := st.seen, cache := c2,
          emitted := st.emitted ++ [(d, spec.text)] } := by
  rw [visit, hl]

theorem visit_err_unfold (env : Env) (fuel : Nat) (d : String) (st : WalkSt)
    (e : ResolveError) (c2 : Cache)
    (hl : load_message_spec env st.cache d = (.error e, c2)) :
    visit env (fuel + 1) d st = .error (.resolve e) := by
  rw [visit, hl]

/-- Re-rendering of the emitted trace: folding `appendSchema` over it
from a given accumulated document. -/
def renderEmitted (acc : String) : List (String × String) → String
  | [] => acc
  | (d, t) :: rest => renderEmitted (appendSchema acc d t) rest

/-- The separator-block form of a trace once the document is nonempty. -/
def concatBlocks : List (String × String) → String
  | [] => ""
  | (d, t) :: rest => sepBlock d ++ t ++ concatBlocks rest

theorem renderEmitted_append (l1 : List (String × String)) :
    ∀ (acc : String) (l2 : List (String × String)),
    renderEmitted acc (l1 ++ l2) = renderEmitted (renderEmitted acc l1) l2 := by
  induction l1 with
  | nil => intro acc l2; rfl
  | cons p rest ih =>
    intro acc l2
    obtain ⟨d, t⟩ := p
    simp only [List.cons_append, renderEmitted]
    exact ih (appendSchema acc d t) l2

theorem data_ne_nil_of_ne_empty {s : String} (h : s ≠ "") : s.data ≠ [] := by
  intro hd
  exact h (String.ext hd)

theorem ne_empty_of_data_ne_nil {s : String} (h : s.data ≠ []) : s ≠ "" := by
  intro he
  rw [he] at h
  exact h rfl

theorem append_ne_empty {a : String} (b : String) (h : a ≠ "") : a ++ b ≠ "" := by
  apply ne_empty_of_data_ne_nil
  rw [String.data_append]
  intro hd
  exact data_ne_nil_of_ne_empty h (List.append_eq_nil.mp hd).1

theorem append_empty_str (a : String) : a ++ "" = a := by
  apply String.ext
  rw [String.data_append]
  exact List.append_nil a.data

theorem str_append_assoc (a b c : String) : (a ++ b) ++ c = a ++ (b ++ c) := by
  apply String.ext
  rw [String.data_append, String.data_append, String.data_append,
    String.data_append]
  exact List.append_assoc a.data b.data c.data

theorem renderEmitted_of_ne_empty : ∀ (l : List (String × String)) (acc : String),
    acc ≠ "" → renderEmitted acc l = acc ++ concatBlocks l := by
  intro l
  induction l with
  | nil => intro acc _; exact (append_empty_str acc).symm
  | cons p rest ih =>
    intro acc hacc
    obtain ⟨d, t⟩ := p
    simp only [renderEmitted, concatBlocks, appendSchema]
    rw [if_neg hacc]
    rw [ih ((acc ++ sepBlock d) ++ t) (append_ne_empty t (append_ne_empty (sepBlock d) hacc))]
    rw [str_append_assoc, str_append_assoc, str_append_assoc]

/-- The per-visit postcondition used for the rendering theorem: a
successful visit extends the trace by its own emission followed by those
of its recursive visits and renders the document accordingly. -/
def RenderPost (f : String → WalkSt → Except VisitError WalkSt) : Prop :=
  ∀ d st st2, f d st = .ok st2 →
    ∃ tx newE, st2.emitted = st.emitted ++ (d, tx) :: newE ∧
      st2.result = renderEmitted st.result ((d, tx) :: newE)

theorem visitList_render (f : String → WalkSt → Except VisitError WalkSt)
    (hf : RenderPost f) : ∀ (deps : List String) (st st2 : WalkSt),
    visitList f deps st = .ok st2 →
    ∃ newE, st2.emitted = st.emitted ++ newE ∧
      st2.result = renderEmitted st.result newE := by
  intro deps
  induction deps with
  | nil =>
    intro st st2 h
    injection h with h2
    subst h2
    exact ⟨[], by simp, rfl⟩
  | cons dep rest ih =>
    intro st st2 h
    unfold visitList at h
    by_cases hseen : dep ∈ st.seen
    · rw [if_pos hseen] at h
      exact ih st st2 h
    · rw [if_neg hseen] at h
      cases hv : f dep { st with seen := dep :: st.seen } with
      | error e => rw [hv] at h; cases h
      | ok st3 =>
        rw [hv] at h
        obtain ⟨tx, e1, he1, hr1⟩ := hf dep _ st3 hv
        obtain ⟨e2, he2, hr2⟩ := ih st3 st2 h
        refine ⟨((dep, tx) :: e1) ++ e2, ?_, ?_⟩
        · rw [he2, he1]
          simp
        · rw [hr2, hr1, renderEmitted_append]

theorem visit_render (env : Env) : ∀ (fuel : Nat),
    RenderPost (fun d2 s2 => visit env fuel d2 s2) := by
  intro fuel
  induction fuel with
  | zero =>
    intro d st st2 h
    cases h
  | succ fuel ih =>
    intro d st st2 h
    simp only [] at h
    cases hl : load_message_spec env st.cache d with
    | mk r c2 =>
      cases r with
      | error e =>
        rw [visit_err_unfold env fuel d st e c2 hl] at h
        cases h
      | ok spec =>
        rw [visit_ok_unfold env fuel d st spec c2 hl] at h
        obtain ⟨newE, he, hr⟩ := visitList_render _ ih spec.dependencies _ st2 h
        refine ⟨spec.text, newE, ?_, ?_⟩
        · rw [he]
          simp
        · rw [hr]
          rfl

theorem empty_append_str (a : String) : "" ++ a = a := by
  apply String.ext
  rw [String.data_append]
  rfl

/-- C1 (amended): the document returned by a successful
`get_full_text` renders its emission trace: the root schema is emitted
first, and each schema's raw text is appended after exactly one
separator block — a newline, the line of exactly eighty equals signs, a
line MSG: datatype, and a newline — except that the block is omitted
while the accumulated document is still empty (which happens beyond the
root only if the root text, and every text emitted since, is empty); in
particular, when the root text is nonempty the document is exactly the
root text followed by one block plus text per further schema. -/
theorem C1_document_structure (env : Env) (cache : Cache) (root : String)
    (fuel : Nat) (st2 : WalkSt)
    (h : get_full_text_trace env cache root fuel = .ok st2) :
    SEPARATOR_LINE.data = List.replicate 80 '=' ∧
    (∀ d, sepBlock d = "\n" ++ SEPARATOR_LINE ++ "\nMSG: " ++ d ++ "\n") ∧
    (∃ tx rest, st2.emitted = (root, tx) :: rest ∧
      st2.result = renderEmitted "" ((root, tx) :: rest) ∧
      (tx ≠ "" → st2.result = tx ++ concatBlocks rest)) ∧
    get_full_text env cache root fuel = .ok (st2.result, st2.cache) := by
  have h2 : visit env fuel root
      { result := "", seen := [root], cache := cache, emitted := [] } = .ok st2 := h
  obtain ⟨tx, newE, he, hr⟩ := visit_render env fuel root _ st2 h2
  refine ⟨by decide, fun d => rfl, ⟨tx, newE, ?_, ?_, ?_⟩, ?_⟩
  · rw [he]
    rfl
  · exact hr
  · intro htx
    rw [hr]
    simp only [renderEmitted, appendSchema, if_pos rfl]
    rw [empty_append_str]
    exact renderEmitted_of_ne_empty newE tx htx
  · unfold get_full_text
    rw [h]
    rfl

/-- Witness for C1 on the circle example: the walk succeeds and the
returned document renders its trace as the theorem states. -/
theorem C1_document_structure_witness :
    ∃ st2 : WalkSt,
      get_full_text_trace circleEnv [] "circle_msgs/Circle" 5 = .ok st2 ∧
      SEPARATOR_LINE.data = List.replicate 80 '=' ∧
      (∃ tx rest, st2.emitted = ("circle_msgs/Circle", tx) :: rest ∧
        st2.result = renderEmitted "" (("circle_msgs/Circle", tx) :: rest) ∧
        (tx ≠ "" → st2.result = tx ++ concatBlocks rest)) := by
  refine ⟨_, rfl, ?_⟩
  have h := C1_document_structure circleEnv [] "circle_msgs/Circle" 5 _ rfl
  exact ⟨h.1, h.2.2.1⟩

/-- Counterexample to C1 as stated: the claim allows no characters
besides the eighty-equals line, the MSG header line and the schema
texts, but the produced document carries one extra newline before each
separator line (the separator string in the source starts with one);
on the circle example the document differs from the claim's shape. -/
theorem C1_counterexample :
    (get_full_text circleEnv [] "circle_msgs/Circle" 5).map Prod.fst =
      .ok ("geometry_msgs/Point position\nfloat64 radius\n" ++ "\n" ++
        SEPARATOR_LINE ++ "\nMSG: geometry_msgs/Point\n" ++
        "float64 x\nfloat64 y\nfloat64 z\n") ∧
    ("geometry_msgs/Point position\nfloat64 radius\n" ++ "\n" ++
        SEPARATOR_LINE ++ "\nMSG: geometry_msgs/Point\n" ++
        "float64 x\nfloat64 y\nfloat64 z\n") ≠
      ("geometry_msgs/Point position\nfloat64 radius\n" ++
        SEPARATOR_LINE ++ "\nMSG: geometry_msgs/Point\n" ++
        "float64 x\nfloat64 y\nfloat64 z\n") := by
  exact ⟨rfl, by decide⟩

/-! ## Claim C2: the worked circle example -/

/-- Counterexample to C2 as stated: the spec's expected concatenation
has the eighty-equals line immediately after the root text, but the
produced document inserts a newline first, so the two strings differ. -/
theorem C2_counterexample :
    (get_full_text circleEnv [] "circle_msgs/Circle" 5).map Prod.fst =
      .ok ("geometry_msgs/Point position\nfloat64 radius\n\n" ++ SEPARATOR_LINE ++
        "\nMSG: geometry_msgs/Point\nfloat64 x\nfloat64 y\nfloat64 z\n") ∧
    ("geometry_msgs/Point position\nfloat64 radius\n\n" ++ SEPARATOR_LINE ++
        "\nMSG: geometry_msgs/Point\nfloat64 x\nfloat64 y\nfloat64 z\n" : String) ≠
      ("geometry_msgs/Point position\nfloat64 radius\n" ++ SEPARATOR_LINE ++
        "\nMSG: geometry_msgs/Point\nfloat64 x\nfloat64 y\nfloat64 z\n") := by
  exact ⟨rfl, by decide⟩

/-- C2 (amended): on the circle example, `get_full_text` returns the
root text, then a newline, then the eighty-equals line, the MSG header
naming geometry_msgs/Point, a newline, and the dependency's text — the
spec's expected string with one extra newline before the separator
line. -/
theorem C2_circle_example :
    (get_full_text circleEnv [] "circle_msgs/Circle" 5).map Prod.fst =
      .ok ("geometry_msgs/Point position\nfloat64 radius\n" ++ "\n" ++
        SEPARATOR_LINE ++
        "\nMSG: geometry_msgs/Point\n" ++ "float64 x\nfloat64 y\nfloat64 z\n") := rfl

/-! ## Claim C3: termination and single emission per datatype -/

/-- The per-visit postcondition for single emission: under the
invariants that the visited datatype is marked seen but not yet emitted
and that emitted datatypes are all seen and distinct, a successful visit
preserves distinctness and grows the seen set monotonically. -/
def NodupPost (f : String → WalkSt → Except VisitError WalkSt) : Prop :=
  ∀ d st st2, d ∈ st.seen → ¬ d ∈ st.emitted.map Prod.fst →
    (st.emitted.map Prod.fst).Nodup →
    (∀ x ∈ st.emitted.map Prod.fst, x ∈ st.seen) →
    f d st = .ok st2 →
    (st2.emitted.map Prod.fst).Nodup ∧
    (∀ x ∈ st2.emitted.map Prod.fst, x ∈ st2.seen) ∧
    (∀ x ∈ st.seen, x ∈ st2.seen)

theorem visitList_nodup (f : String → WalkSt → Except VisitError WalkSt)
    (hf : NodupPost f) : ∀ (deps : List String) (st st2 : WalkSt),
    (st.emitted.map Prod.fst).Nodup →
    (∀ x ∈ st.emitted.map Prod.fst, x ∈ st.seen) →
    visitList f deps st = .ok st2 →
    (st2.emitted.map Prod.fst).Nodup ∧
    (∀ x ∈ st2.emitted.map Prod.fst, x ∈ st2.seen) ∧
    (∀ x ∈ st.seen, x ∈ st2.seen) := by
  intro deps
  induction deps with
  | nil =>
    intro st st2 hn hsub h
    injection h with h2
    subst h2
    exact ⟨hn, hsub, fun x hx => hx⟩
  | cons dep rest ih =>
    intro st st2 hn hsub h
    unfold visitList at h
    by_cases hseen : dep ∈ st.seen
    · rw [if_pos hseen] at h
      exact ih st st2 hn hsub h
    · rw [if_neg hseen] at h
      cases hv : f dep { st with seen := dep :: st.seen } with
      | error e => rw [hv] at h; cases h
      | ok st3 =>
        rw [hv] at h
        have hpre1 : dep ∈ ({ st with seen := dep :: st.seen } : WalkSt).seen :=
          List.mem_cons_self dep st.seen
        have hpre2 : ¬ dep ∈
            (({ st with seen := dep :: st.seen } : WalkSt).emitted.map Prod.fst) :=
          fun hmem => hseen (hsub dep hmem)
        have hpre4 : ∀ x ∈
            (({ st with seen := dep :: st.seen } : WalkSt).emitted.map Prod.fst),
            x ∈ ({ st with seen := dep :: st.seen } : WalkSt).seen :=
          fun x hx => List.mem_cons_of_mem dep (hsub x hx)
        obtain ⟨hn3, hsub3, hmono3⟩ := hf dep _ st3 hpre1 hpre2 hn hpre4 hv
        obtain ⟨hn2, hsub2, hmono2⟩ := ih st3 st2 hn3 hsub3 h
        refine ⟨hn2, hsub2, fun x hx => ?_⟩
        exact hmono2 x (hmono3 x (List.mem_cons_of_mem dep hx))

theorem visit_nodup (env : Env) : ∀ fuel : Nat,
    NodupPost (fun d2 s2 => visit env fuel d2 s2) := by
  intro fuel
  induction fuel with
  | zero =>
    intro d st st2 _ _ _ _ h
    cases h
  | succ fuel ih =>
    intro d st st2 hd hnd hn hsub h
    simp only [] at h
    cases hl : load_message_spec env st.cache d with
    | mk r c2 =>
      cases r with
      | error e =>
        rw [visit_err_unfold env fuel d st e c2 hl] at h
        cases h
      | ok spec =>
        rw [visit_ok_unfold env fuel d st spec c2 hl] at h
        have hn1 : ((st.emitted ++ [(d, spec.text)]).map Prod.fst).Nodup := by
          rw [List.map_append]
          rw [List.nodup_append]
          refine ⟨hn, List.nodup_singleton d, ?_⟩
          intro x hx hx2
          simp at hx2
          subst hx2
          exact hnd hx
        have hsub1 : ∀ x ∈ (st.emitted ++ [(d, spec.text)]).map Prod.fst,
            x ∈ st.seen := by
          intro x hx
          rw [List.map_append] at hx
          rcases List.mem_append.mp hx with h1 | h1
          · exact hsub x h1
          · simp at h1
            subst h1
            exact hd
        obtain ⟨hn2, hsub2, hmono2⟩ :=
          visitList_nodup _ ih spec.dependencies _ st2 hn1 hsub1 h
        exact ⟨hn2, hsub2, hmono2⟩

/-- The texts a resolution can ever produce from the environment: every
file's whole contents, each of its `---`-sections, and the empty
string. -/
def envTexts (env : Env) : List String :=
  "" :: env.files.flatMap (fun f => f.2 :: (splitDashes f.2.data).map List.asString)

/-- Every dependency name the environment can ever produce: the parse of
every candidate text under every known package context. -/
def envDeps (env : Env) : List String :=
  env.shareDir.flatMap (fun pe => (envTexts env).flatMap (fun t => parse_dependencies t pe.1))

/-- All dependency names stored in a cache. -/
def cacheDeps (cache : Cache) : List String :=
  cache.flatMap (fun e => e.2.dependencies)

theorem getD_mem {α : Type} : ∀ (l : List α) (i : Nat) (dflt : α),
    i < l.length → l.getD i dflt ∈ l := by
  intro l
  induction l with
  | nil => intro i dflt h; cases h
  | cons a as ih =>
    intro i dflt h
    cases i with
    | zero => exact List.mem_cons_self a as
    | succ j =>
      exact List.mem_cons_of_mem a (ih j dflt (Nat.lt_of_succ_lt_succ h))

theorem parseService_ok_text {d typ content c : String}
    (h : parseService d typ content = .ok c) :
    c = "" ∨ c ∈ (splitDashes content.data).map List.asString := by
  unfold parseService at h
  by_cases hl : (splitDashes content.data).length = 2
  · rw [if_pos hl] at h
    injection h with h2
    by_cases h3 : containsSub "_Request".data typ.data = true
    · rw [h3] at h2
      simp only [if_true] at h2
      refine Or.inr ?_
      rw [← h2]
      exact List.mem_map_of_mem _ (getD_mem _ 0 [] (by omega))
    · rw [Bool.not_eq_true] at h3
      rw [h3] at h2
      simp only [Bool.false_eq_true, if_false] at h2
      by_cases h4 : containsSub "_Result".data typ.data = true
      · rw [h4] at h2
        simp only [if_true] at h2
        refine Or.inr ?_
        rw [← h2]
        exact List.mem_map_of_mem _ (getD_mem _ 1 [] (by omega))
      · rw [Bool.not_eq_true] at h4
        rw [h4] at h2
        simp only [Bool.false_eq_true, if_false] at h2
        exact Or.inl h2.symm
  · rw [if_neg hl] at h
    cases h

theorem parseAction_ok_text {d typ content c : String}
    (h : parseAction d typ content = .ok c) :
    c = "" ∨ c ∈ (splitDashes content.data).map List.asString := by
  unfold parseAction at h
  by_cases hl : (splitDashes content.data).length = 3
  · rw [if_pos hl] at h
    injection h with h2
    by_cases h3 : containsSub "_Goal".data typ.data = true
    · rw [h3] at h2
      simp only [if_true] at h2
      refine Or.inr ?_
      rw [← h2]
      exact List.mem_map_of_mem _ (getD_mem _ 0 [] (by omega))
    · rw [Bool.not_eq_true] at h3
      rw [h3] at h2
      simp only [Bool.false_eq_true, if_false] at h2
      by_cases h4 : containsSub "_Result".data typ.data = true
      · rw [h4] at h2
        simp only [if_true] at h2
        refine Or.inr ?_
        rw [← h2]
        exact List.mem_map_of_mem _ (getD_mem _ 1 [] (by omega))
      · rw [Bool.not_eq_true] at h4
        rw [h4] at h2
        simp only [Bool.false_eq_true, if_false] at h2
        by_cases h5 : containsSub "_Feedback".data typ.data = true
        · rw [h5] at h2
          simp only [if_true] at h2
          refine Or.inr ?_
          rw [← h2]
          exact List.mem_map_of_mem _ (getD_mem _ 2 [] (by omega))
        · rw [Bool.not_eq_true] at h5
          rw [h5] at h2
          simp only [Bool.false_eq_true, if_false] at h2
          exact Or.inl h2.symm
  · rw [if_neg hl] at h
    cases h

theorem resolveContents_ok_text {env : Env} {D typ d c : String}
    (h : resolveContents env D typ d = .ok c) : c ∈ envTexts env := by
  have hfile : ∀ (path content : String), lookupA env.files path = some content →
      (c = "" ∨ c = content ∨ c ∈ (splitDashes content.data).map List.asString) →
      c ∈ envTexts env := by
    intro path content hlook hc
    rcases hc with hc | hc | hc
    · rw [hc]
      exact List.mem_cons_self "" _
    · refine List.mem_cons_of_mem "" (List.mem_flatMap.mpr ⟨(path, content), lookupA_mem hlook, ?_⟩)
      rw [hc]
      exact List.mem_cons_self _ _
    · exact List.mem_cons_of_mem ""
        (List.mem_flatMap.mpr ⟨(path, content), lookupA_mem hlook, List.mem_cons_of_mem _ hc⟩)
  unfold resolveContents at h
  cases h1 : lookupA env.files (D ++ "/msg/" ++ typ ++ ".msg") with
  | some c1 =>
    rw [h1] at h
    injection h with h2
    exact hfile _ c1 h1 (Or.inr (Or.inl h2.symm))
  | none =>
    rw [h1] at h
    cases h2 : lookupA env.files (D ++ "/srv/" ++ typ ++ ".msg") with
    | some c2 =>
      rw [h2] at h
      injection h with h3
      exact hfile _ c2 h2 (Or.inr (Or.inl h3.symm))
    | none =>
      rw [h2] at h
      cases h3 : lookupA env.files (D ++ "/srv/" ++ typTrunc typ ++ ".srv") with
      | some c3 =>
        rw [h3] at h
        rcases parseService_ok_text h with hc | hc
        · exact hfile _ c3 h3 (Or.inl hc)
        · exact hfile _ c3 h3 (Or.inr (Or.inr hc))
      | none =>
        rw [h3] at h
        cases h4 : lookupA env.files (D ++ "/action/" ++ typTrunc typ ++ ".action") with
        | some c4 =>
          rw [h4] at h
          rcases parseAction_ok_text h with hc | hc
          · exact hfile _ c4 h4 (Or.inl hc)
          · exact hfile _ c4 h4 (Or.inr (Or.inr hc))
        | none =>
          rw [h4] at h
          cases h

theorem compute_spec_deps {env : Env} {s : String} {spec : MessageSpec}
    (h : compute_spec env s = .ok spec) :
    ∀ x ∈ spec.dependencies, x ∈ envDeps env := by
  cases hp : parseDatatype s with
  | none =>
    have hcs : compute_spec env s = .error (.invalidName s) := by
      unfold compute_spec
      rw [hp]
    rw [hcs] at h
    cases h
  | some pt =>
    obtain ⟨p, t⟩ := pt
    have hcs : compute_spec env s = specForPackage env s p t := by
      unfold compute_spec
      rw [hp]
    rw [hcs] at h
    cases hsd : lookupA env.shareDir p with
    | none =>
      have hsf : specForPackage env s p t = .error (.packageNotFound p) := by
        unfold specForPackage
        rw [hsd]
      rw [hsf] at h
      cases h
    | some D =>
      have hsf : specForPackage env s p t =
          (resolveContents env D t s).map (fun c => MessageSpec.make c p) := by
        unfold specForPackage
        rw [hsd]
      rw [hsf] at h
      cases hrc : resolveContents env D t s with
      | error e => rw [hrc] at h; cases h
      | ok c =>
        rw [hrc] at h
        injection h with h2
        intro x hx
        rw [← h2] at hx
        refine List.mem_flatMap.mpr ⟨(p, D), lookupA_mem hsd, ?_⟩
        refine List.mem_flatMap.mpr ⟨c, resolveContents_ok_text hrc, ?_⟩
        exact hx

/-- The invariant that a cache draws all its dependency names from a
fixed universe. -/
def CacheOK (U : List String) (cache : Cache) : Prop :=
  ∀ e ∈ cache, ∀ x ∈ e.2.dependencies, x ∈ U

theorem load_U {env : Env} {cache : Cache} {d : String} {spec : MessageSpec}
    {cache2 : Cache} {U : List String} (hU : ∀ x ∈ envDeps env, x ∈ U)
    (hC : CacheOK U cache) (h : load_message_spec env cache d = (.ok spec, cache2)) :
    (∀ x ∈ spec.dependencies, x ∈ U) ∧ CacheOK U cache2 := by
  unfold load_message_spec at h
  cases hl : lookupA cache d with
  | some s =>
    rw [hl] at h
    cases h
    exact ⟨fun x hx => hC _ (lookupA_mem hl) x hx, hC⟩
  | none =>
    rw [hl] at h
    cases hc : compute_spec env d with
    | error e => rw [hc] at h; cases h
    | ok spec0 =>
      rw [hc] at h
      cases h
      refine ⟨fun x hx => hU x (compute_spec_deps hc x hx), ?_⟩
      intro e he x hx
      rcases List.mem_cons.mp he with he1 | he1
      · subst he1
        exact hU x (compute_spec_deps hc x hx)
      · exact hC e he1 x hx

/-- The number of universe entries not yet seen, the walk's decreasing
measure. -/
def newCount (U seen : List String) : Nat :=
  match U with
  | [] => 0
  | x :: rest => (if x ∈ seen then 0 else 1) + newCount rest seen

theorem newCount_mono {s s2 : List String} (h : ∀ x ∈ s, x ∈ s2) :
    ∀ U : List String, newCount U s2 ≤ newCount U s := by
  intro U
  induction U with
  | nil => exact Nat.le_refl 0
  | cons x rest ih =>
    unfold newCount
    by_cases hx : x ∈ s
    · rw [if_pos hx, if_pos (h x hx)]
      omega
    · rw [if_neg hx]
      by_cases hx2 : x ∈ s2
      · rw [if_pos hx2]
        omega
      · rw [if_neg hx2]
        omega

theorem newCount_cons_lt {d : String} {s : List String} (hd2 : ¬ d ∈ s) :
    ∀ U : List String, d ∈ U → newCount U (d :: s) < newCount U s := by
  intro U
  induction U with
  | nil => intro h; cases h
  | cons x rest ih =>
    intro hmem
    unfold newCount
    by_cases hx : x = d
    · subst hx
      rw [if_pos (List.mem_cons_self x s), if_neg hd2]
      have hm : newCount rest (x :: s) ≤ newCount rest s :=
        newCount_mono (fun y hy => List.mem_cons_of_mem x hy) rest
      omega
    · have hiff : (x ∈ d :: s) ↔ (x ∈ s) := by
        constructor
        · intro hmm
          rcases List.mem_cons.mp hmm with h1 | h1
          · exact absurd h1 hx
          · exact h1
        · exact List.mem_cons_of_mem d
      have hrest : d ∈ rest := by
        rcases List.mem_cons.mp hmem with h1 | h1
        · exact absurd h1.symm hx
        · exact h1
      by_cases hxs : x ∈ s
      · rw [if_pos hxs, if_pos (hiff.mpr hxs)]
        exact Nat.add_lt_add_left (ih hrest) 0
      · rw [if_neg hxs, if_neg (fun hmm => hxs (hiff.mp hmm))]
        exact Nat.add_lt_add_left (ih hrest) 1

theorem visitList_cons_seen (f : String → WalkSt → Except VisitError WalkSt)
    (dep : String) (rest : List String) (st : WalkSt) (h : dep ∈ st.seen) :
    visitList f (dep :: rest) st = visitList f rest st := by
  show (if dep ∈ st.seen then visitList f rest st
    else match f dep { st with seen := dep :: st.seen } with
      | .error e => .error e
      | .ok st2 => visitList f rest st2) = visitList f rest st
  rw [if_pos h]

theorem visitList_cons_err (f : String → WalkSt → Except VisitError WalkSt)
    (dep : String) (rest : List String) (st : WalkSt) (e : VisitError)
    (hseen : ¬ dep ∈ st.seen)
    (hv : f dep { st with seen := dep :: st.seen } = .error e) :
    visitList f (dep :: rest) st = .error e := by
  show (if dep ∈ st.seen then visitList f rest st
    else match f dep { st with seen := dep :: st.seen } with
      | .error e => .error e
      | .ok st2 => visitList f rest st2) = .error e
  rw [if_neg hseen, hv]

theorem visitList_cons_ok (f : String → WalkSt → Except VisitError WalkSt)
    (dep : String) (rest : List String) (st st3 : WalkSt)
    (hseen : ¬ dep ∈ st.seen)
    (hv : f dep { st with seen := dep :: st.seen } = .ok st3) :
    visitList f (dep :: rest) st = visitList f rest st3 := by
  show (if dep ∈ st.seen then visitList f rest st
    else match f dep { st with seen := dep :: st.seen } with
      | .error e => .error e
      | .ok st2 => visitList f rest st2) = visitList f rest st3
  rw [if_neg hseen, hv]

/-- The per-visit postcondition for fuel adequacy: with every cached
dependency name inside the universe and strictly fewer unseen universe
entries than the bound, a visit never exhausts the model's fuel, and on
success it preserves the cache invariant while only growing the seen
set. -/
def FuelPost (U : List String) (B : Nat)
    (f : String → WalkSt → Except VisitError WalkSt) : Prop :=
  ∀ d st, CacheOK U st.cache → newCount U st.seen < B →
    (f d st ≠ .error .fuelOut) ∧
    (∀ st2, f d st = .ok st2 → CacheOK U st2.cache ∧
      (∀ x ∈ st.seen, x ∈ st2.seen) ∧
      newCount U st2.seen ≤ newCount U st.seen)

theorem visitList_fuel (U : List String) (B : Nat)
    (f : String → WalkSt → Except VisitError WalkSt)
    (hf : FuelPost U B f) : ∀ (deps : List String) (st : WalkSt),
    (∀ x ∈ deps, x ∈ U) → CacheOK U st.cache → newCount U st.seen ≤ B →
    (visitList f deps st ≠ .error .fuelOut) ∧
    (∀ st2, visitList f deps st = .ok st2 → CacheOK U st2.cache ∧
      (∀ x ∈ st.seen, x ∈ st2.seen) ∧
      newCount U st2.seen ≤ newCount U st.seen) := by
  intro deps
  induction deps with
  | nil =>
    intro st _ hC _
    constructor
    · intro h
      cases h
    · intro st2 h
      injection h with h2
      subst h2
      exact ⟨hC, fun x hx => hx, Nat.le_refl _⟩
  | cons dep rest ih =>
    intro st hdeps hC hB
    have hrest : ∀ x ∈ rest, x ∈ U :=
      fun x hx => hdeps x (List.mem_cons_of_mem dep hx)
    by_cases hseen : dep ∈ st.seen
    · rw [visitList_cons_seen f dep rest st hseen]
      exact ih st hrest hC hB
    · have hlt : newCount U (dep :: st.seen) < newCount U st.seen :=
        newCount_cons_lt hseen U (hdeps dep (List.mem_cons_self dep rest))
      have hltB : newCount U (dep :: st.seen) < B := Nat.lt_of_lt_of_le hlt hB
      have hfd := hf dep { st with seen := dep :: st.seen } hC hltB
      cases hv : f dep { st with seen := dep :: st.seen } with
      | error e =>
        rw [visitList_cons_err f dep rest st e hseen hv]
        constructor
        · intro h
          apply hfd.1
          rw [hv]
          injection h with h2
          rw [h2]
        · intro st2 h
          cases h
      | ok st3 =>
        obtain ⟨hC3, hmono3, hcount3⟩ := hfd.2 st3 hv
        rw [visitList_cons_ok f dep rest st st3 hseen hv]
        have hB3 : newCount U st3.seen ≤ B :=
          Nat.le_trans hcount3 (Nat.le_of_lt hltB)
        obtain ⟨hno, hok⟩ := ih st3 hrest hC3 hB3
        refine ⟨hno, ?_⟩
        intro st2 h
        obtain ⟨hC2, hmono2, hcount2⟩ := hok st2 h
        refine ⟨hC2, ?_, ?_⟩
        · intro x hx
          exact hmono2 x (hmono3 x (List.mem_cons_of_mem dep hx))
        · exact Nat.le_trans hcount2 (Nat.le_trans hcount3 (Nat.le_of_lt hlt))

theorem visit_fuel (env : Env) (U : List String)
    (hU : ∀ x ∈ envDeps env, x ∈ U) : ∀ fuel : Nat,
    FuelPost U fuel (fun d2 s2 => visit env fuel d2 s2) := by
  intro fuel
  induction fuel with
  | zero =>
    intro d st _ hlt
    exact absurd hlt (Nat.not_lt_zero _)
  | succ fuel ih =>
    intro d st hC hlt
    cases hl : load_message_spec env st.cache d with
    | mk r c2 =>
      cases r with
      | error e =>
        have hv := visit_err_unfold env fuel d st e c2 hl
        constructor
        · intro h
          simp only [] at h
          rw [hv] at h
          injection h with h2
          cases h2
        · intro st2 h
          simp only [] at h
          rw [hv] at h
          cases h
      | ok spec =>
        have hv := visit_ok_unfold env fuel d st spec c2 hl
        obtain ⟨hdeps, hC2⟩ := load_U hU hC hl
        have hB : newCount U st.seen ≤ fuel := Nat.lt_succ_iff.mp hlt
        have hlist := visitList_fuel U fuel (fun d2 s2 => visit env fuel d2 s2)
          ih spec.dependencies
          { result := appendSchema st.result d spec.text, seen := st.seen,
            cache := c2, emitted := st.emitted ++ [(d, spec.text)] }
          hdeps hC2 hB
        constructor
        · intro h
          simp only [] at h
          rw [hv] at h
          exact hlist.1 h
        · intro st2 h
          simp only [] at h
          rw [hv] at h
          exact hlist.2 st2 h

set_option maxRecDepth 8000 in
/-- C3: the closure walk terminates on every dependency graph — fuel
exceeding the number of unseen names in the dependency universe (cache
entries plus everything the environment can produce) is never exhausted,
cycles and diamonds included — and each datatype is visited at most
once, so its text and MSG header are emitted at most once; concretely,
the two-node cycle resolves, and the diamond visits D once, emitting a
single MSG: pkg/D block. -/
theorem C3_termination_and_uniqueness :
    (∀ (env : Env) (cache : Cache) (root : String) (fuel : Nat),
      newCount (cacheDeps cache ++ envDeps env) [root] < fuel →
      get_full_text env cache root fuel ≠ .error .fuelOut) ∧
    (∀ (env : Env) (cache : Cache) (root : String) (fuel : Nat) (st2 : WalkSt),
      get_full_text_trace env cache root fuel = .ok st2 →
      (st2.emitted.map Prod.fst).Nodup) ∧
    (get_full_text cycleEnv [] "pkga/A" 5).map Prod.fst =
      .ok ("pkgb/B b\n" ++ "\n" ++ SEPARATOR_LINE ++ "\nMSG: pkgb/B\n" ++
        "pkga/A a\n") ∧
    (get_full_text_trace diamondEnv [] "pkg/Root" 9).map
        (fun st => st.emitted.map Prod.fst) =
      .ok ["pkg/Root", "pkg/B", "pkg/D", "pkg/C"] ∧
    (get_full_text diamondEnv [] "pkg/Root" 9).map Prod.fst =
      .ok ("pkg/B b\npkg/C c\n" ++
        "\n" ++ SEPARATOR_LINE ++ "\nMSG: pkg/B\n" ++ "pkg/D d1\n" ++
        "\n" ++ SEPARATOR_LINE ++ "\nMSG: pkg/D\n" ++ "int32 x\n" ++
        "\n" ++ SEPARATOR_LINE ++ "\nMSG: pkg/C\n" ++ "pkg/D d2\n") := by
  refine ⟨?_, ?_, rfl, rfl, rfl⟩
  · intro env cache root fuel hlt h
    have hU : ∀ x ∈ envDeps env, x ∈ cacheDeps cache ++ envDeps env :=
      fun x hx => List.mem_append_right _ hx
    have hC : CacheOK (cacheDeps cache ++ envDeps env) cache := by
      intro e he x hx
      exact List.mem_append_left _ (List.mem_flatMap.mpr ⟨e, he, hx⟩)
    have hfp := visit_fuel env (cacheDeps cache ++ envDeps env) hU fuel root
      { result := "", seen := [root], cache := cache, emitted := [] } hC hlt
    apply hfp.1
    show visit env fuel root
      { result := "", seen := [root], cache := cache, emitted := [] } =
        .error .fuelOut
    unfold get_full_text at h
    cases ht : get_full_text_trace env cache root fuel with
    | error e =>
      rw [ht] at h
      simp only [Except.map] at h
      injection h with h2
      subst h2
      exact ht
    | ok st2 =>
      rw [ht] at h
      simp only [Except.map] at h
      cases h
  · intro env cache root fuel st2 h
    have h2 : visit env fuel root
        { result := "", seen := [root], cache := cache, emitted := [] } =
      .ok st2 := h
    have h3 := visit_nodup env fuel root
      { result := "", seen := [root], cache := cache, emitted := [] } st2
      (List.mem_cons_self root []) (by simp) (by simp) (by simp) h2
    exact h3.1

/-- Witness for C3: the cycle terminates with adequate fuel discharged
by evaluation, and the diamond's emission trace is duplicate-free. -/
theorem C3_termination_and_uniqueness_witness :
    get_full_text cycleEnv [] "pkga/A" 5 ≠ .error .fuelOut ∧
    (∃ st2, get_full_text_trace diamondEnv [] "pkg/Root" 9 = .ok st2 ∧
      (st2.emitted.map Prod.fst).Nodup) := by
  constructor
  · exact C3_termination_and_uniqueness.1 cycleEnv [] "pkga/A" 5 (by decide)
  · exact ⟨_, rfl,
      C3_termination_and_uniqueness.2.1 diamondEnv [] "pkg/Root" 9 _ rfl⟩

/-! ## Claim C9: error propagation and cache hygiene on failure -/

theorem load_error_state {env : Env} {cache : Cache} {d : String}
    {e : ResolveError} {c2 : Cache}
    (h : load_message_spec env cache d = (.error e, c2)) :
    c2 = cache ∧ lookupA cache d = none := by
  unfold load_message_spec at h
  cases hl : lookupA cache d with
  | some s =>
    rw [hl] at h
    cases h
  | none =>
    rw [hl] at h
    cases hc : compute_spec env d with
    | error e2 =>
      rw [hc] at h
      injection h with h1 h2
      exact ⟨h2.symm, rfl⟩
    | ok spec =>
      rw [hc] at h
      cases h

/-- The per-visit postcondition for error origin: a resolve error
returned by the walk is exactly the error of a failing load, performed
against a cache that holds no entry for the failing datatype. -/
def ErrOriginPost (env : Env) (f : String → WalkSt → Except VisitError WalkSt) :
    Prop :=
  ∀ d st e, f d st = .error (.resolve e) →
    ∃ (c3 : Cache) (d3 : String), (load_message_spec env c3 d3).1 = .error e ∧
      lookupA c3 d3 = none

theorem visitList_err_origin (env : Env)
    (f : String → WalkSt → Except VisitError WalkSt)
    (hf : ErrOriginPost env f) : ∀ (deps : List String) (st : WalkSt)
    (e : ResolveError), visitList f deps st = .error (.resolve e) →
    ∃ (c3 : Cache) (d3 : String), (load_message_spec env c3 d3).1 = .error e ∧
      lookupA c3 d3 = none := by
  intro deps
  induction deps with
  | nil =>
    intro st e h
    cases h
  | cons dep rest ih =>
    intro st e h
    by_cases hseen : dep ∈ st.seen
    · rw [visitList_cons_seen f dep rest st hseen] at h
      exact ih st e h
    · cases hv : f dep { st with seen := dep :: st.seen } with
      | error e2 =>
        rw [visitList_cons_err f dep rest st e2 hseen hv] at h
        injection h with h2
        subst h2
        exact hf dep _ e hv
      | ok st3 =>
        rw [visitList_cons_ok f dep rest st st3 hseen hv] at h
        exact ih st3 e h

theorem visit_err_origin (env : Env) : ∀ fuel : Nat,
    ErrOriginPost env (fun d2 s2 => visit env fuel d2 s2) := by
  intro fuel
  induction fuel with
  | zero =>
    intro d st e h
    simp only [] at h
    injection h with h2
    cases h2
  | succ fuel ih =>
    intro d st e h
    simp only [] at h
    cases hl : load_message_spec env st.cache d with
    | mk r c2 =>
      cases r with
      | error e2 =>
        rw [visit_err_unfold env fuel d st e2 c2 hl] at h
        injection h with h2
        injection h2 with h3
        subst h3
        refine ⟨st.cache, d, ?_, (load_error_state hl).2⟩
        rw [hl]
      | ok spec =>
        rw [visit_ok_unfold env fuel d st spec c2 hl] at h
        exact visitList_err_origin env _ ih spec.dependencies _ e h

/-- C9: a failed `load_message_spec` leaves the cache exactly as it was
and, in particular, no entry under the failed datatype, so a later
lookup of that datatype finds nothing; and every resolve error coming
out of the closure walk is the unchanged error of such a failing load —
the walk aborts with an error value carrying no partial document, and a
failing dependency visit aborts the whole dependency loop. -/
theorem C9_error_propagation :
    (∀ (env : Env) (cache : Cache) (d : String) (e : ResolveError) (c2 : Cache),
      load_message_spec env cache d = (.error e, c2) →
      c2 = cache ∧ lookupA cache d = none) ∧
    (∀ (env : Env) (fuel : Nat) (d : String) (st : WalkSt) (e : ResolveError),
      visit env fuel d st = .error (.resolve e) →
      ∃ (c3 : Cache) (d3 : String), (load_message_spec env c3 d3).1 = .error e ∧
        lookupA c3 d3 = none) ∧
    (∀ (env : Env) (fuel : Nat) (dep : String) (rest : List String)
      (st : WalkSt) (e : VisitError), ¬ dep ∈ st.seen →
      visit env fuel dep { st with seen := dep :: st.seen } = .error e →
      visitList (fun d2 s2 => visit env fuel d2 s2) (dep :: rest) st = .error e) ∧
    (∀ (env : Env) (cache : Cache) (root : String) (fuel : Nat) (e : VisitError),
      get_full_text_trace env cache root fuel = .error e →
      get_full_text env cache root fuel = .error e) := by
  refine ⟨?_, ?_, ?_, ?_⟩
  · intro env cache d e c2 h
    exact load_error_state h
  · intro env fuel d st e h
    exact visit_err_origin env fuel d st e h
  · intro env fuel dep rest st e hseen h
    exact visitList_cons_err _ dep rest st e hseen h
  · intro env cache root fuel e h
    unfold get_full_text
    rw [h]
    rfl

/-- Witness for C9: the root of the missing-dependency example loads,
but its dependency does not; the walk returns exactly the not-found
error of that failing load, and the theorem locates the failing load,
which left no cache entry. -/
theorem C9_error_propagation_witness :
    visit missingDepEnv 5 "pkg/Root"
      { result := "", seen := ["pkg/Root"], cache := [], emitted := [] } =
      .error (.resolve (.notFound "pkg/Missing")) ∧
    (∃ (c3 : Cache) (d3 : String),
      (load_message_spec missingDepEnv c3 d3).1 = .error (.notFound "pkg/Missing") ∧
      lookupA c3 d3 = none) := by
  refine ⟨rfl, ?_⟩
  exact C9_error_propagation.2.1 missingDepEnv 5 "pkg/Root"
    { result := "", seen := ["pkg/Root"], cache := [], emitted := [] }
    (.notFound "pkg/Missing") rfl

/-! ## Claim C10: determinism of the rendered document -/

/-- A cache is consistent with the environment when every entry is what
the miss path would compute for its datatype — exactly the caches that
arise from operation, since entries are only ever inserted with the
freshly computed spec. -/
def CacheConsistent (env : Env) (cache : Cache) : Prop :=
  ∀ d s, lookupA cache d = some s → compute_spec env d = .ok s

theorem load_miss_err {env : Env} {cache : Cache} {d : String}
    {e : ResolveError} (hl : lookupA cache d = none)
    (hc : compute_spec env d = .error e) :
    load_message_spec env cache d = (.error e, cache) := by
  unfold load_message_spec
  rw [hl, hc]

theorem load_miss_ok {env : Env} {cache : Cache} {d : String}
    {spec : MessageSpec} (hl : lookupA cache d = none)
    (hc : compute_spec env d = .ok spec) :
    load_message_spec env cache d = (.ok spec, (d, spec) :: cache) := by
  unfold load_message_spec
  rw [hl, hc]

theorem load_consistent {env : Env} {cache : Cache} (d : String)
    (h : CacheConsistent env cache) :
    (load_message_spec env cache d).1 = compute_spec env d ∧
    CacheConsistent env (load_message_spec env cache d).2 := by
  cases hl : lookupA cache d with
  | some s =>
    rw [load_hit hl env]
    exact ⟨(h d s hl).symm, h⟩
  | none =>
    cases hc : compute_spec env d with
    | error e =>
      rw [load_miss_err hl hc]
      exact ⟨rfl, h⟩
    | ok spec =>
      rw [load_miss_ok hl hc]
      refine ⟨rfl, ?_⟩
      intro d2 s2 hl2
      unfold lookupA at hl2
      by_cases hd : d = d2
      · rw [if_pos hd] at hl2
        injection hl2 with h3
        subst h3
        rw [← hd]
        exact hc
      · rw [if_neg hd] at hl2
        exact h d2 s2 hl2

/-- The per-visit postcondition for cache independence: visits from
states equal up to the cache, both caches consistent, produce the same
outcome (same error, or same document, seen set and trace) and leave
both caches consistent. -/
def EquivPost (env : Env) (f : String → WalkSt → Except VisitError WalkSt) :
    Prop :=
  ∀ d st1 st1b, st1.result = st1b.result → st1.seen = st1b.seen →
    st1.emitted = st1b.emitted →
    CacheConsistent env st1.cache → CacheConsistent env st1b.cache →
    (∀ e, f d st1 = .error e → f d st1b = .error e) ∧
    (∀ st2, f d st1 = .ok st2 → ∃ st2b, f d st1b = .ok st2b ∧
      st2.result = st2b.result ∧ st2.seen = st2b.seen ∧
      st2.emitted = st2b.emitted ∧
      CacheConsistent env st2.cache ∧ CacheConsistent env st2b.cache)

theorem visitList_equiv (env : Env)
    (f : String → WalkSt → Except VisitError WalkSt)
    (hf : EquivPost env f) : ∀ (deps : List String) (st1 st1b : WalkSt),
    st1.result = st1b.result → st1.seen = st1b.seen →
    st1.emitted = st1b.emitted →
    CacheConsistent env st1.cache → CacheConsistent env st1b.cache →
    (∀ e, visitList f deps st1 = .error e → visitList f deps st1b = .error e) ∧
    (∀ st2, visitList f deps st1 = .ok st2 → ∃ st2b,
      visitList f deps st1b = .ok st2b ∧
      st2.result = st2b.result ∧ st2.seen = st2b.seen ∧
      st2.emitted = st2b.emitted ∧
      CacheConsistent env st2.cache ∧ CacheConsistent env st2b.cache) := by
  intro deps
  induction deps with
  | nil =>
    intro st1 st1b hres hseen hem hc1 hc1b
    constructor
    · intro e h
      cases h
    · intro st2 h
      injection h with h2
      subst h2
      exact ⟨st1b, rfl, hres, hseen, hem, hc1, hc1b⟩
  | cons dep rest ih =>
    intro st1 st1b hres hseen hem hc1 hc1b
    by_cases hmem : dep ∈ st1.seen
    · have hmemb : dep ∈ st1b.seen := hseen ▸ hmem
      rw [visitList_cons_seen f dep rest st1 hmem,
        visitList_cons_seen f dep rest st1b hmemb]
      exact ih st1 st1b hres hseen hem hc1 hc1b
    · have hmemb : ¬ dep ∈ st1b.seen := fun h2 => hmem (hseen ▸ h2)
      have hrel := hf dep { st1 with seen := dep :: st1.seen }
        { st1b with seen := dep :: st1b.seen } hres (by rw [hseen]) hem hc1 hc1b
      cases hv : f dep { st1 with seen := dep :: st1.seen } with
      | error e2 =>
        have hvb := hrel.1 e2 hv
        rw [visitList_cons_err f dep rest st1 e2 hmem hv,
          visitList_cons_err f dep rest st1b e2 hmemb hvb]
        exact ⟨fun e h => h, fun st2 h => by cases h⟩
      | ok st3 =>
        obtain ⟨st3b, hvb, hres3, hseen3, hem3, hc3, hc3b⟩ := hrel.2 st3 hv
        rw [visitList_cons_ok f dep rest st1 st3 hmem hv,
          visitList_cons_ok f dep rest st1b st3b hmemb hvb]
        exact ih st3 st3b hres3 hseen3 hem3 hc3 hc3b

theorem visit_equiv (env : Env) : ∀ fuel : Nat,
    EquivPost env (fun d2 s2 => visit env fuel d2 s2) := by
  intro fuel
  induction fuel with
  | zero =>
    intro d st1 st1b _ _ _ _ _
    constructor
    · intro e h
      simp only [] at h
      injection h with h2
      subst h2
      rfl
    · intro st2 h
      cases h
  | succ fuel ih =>
    intro d st1 st1b hres hseen hem hc1 hc1b
    have hload1 := load_consistent d hc1
    have hload1b := load_consistent d hc1b
    cases hp1 : load_message_spec env st1.cache d with
    | mk r1 c21 =>
      cases hp1b : load_message_spec env st1b.cache d with
      | mk r1b c21b =>
        have hr1 : r1 = compute_spec env d := by
          rw [hp1] at hload1
          exact hload1.1
        have hr1b : r1b = compute_spec env d := by
          rw [hp1b] at hload1b
          exact hload1b.1
        have hc21 : CacheConsistent env c21 := by
          have h2 := hload1.2
          rw [hp1] at h2
          exact h2
        have hc21b : CacheConsistent env c21b := by
          have h2 := hload1b.2
          rw [hp1b] at h2
          exact h2
        cases hcom : compute_spec env d with
        | error e =>
          have he1 : r1 = .error e := by rw [hr1, hcom]
          have he1b : r1b = .error e := by rw [hr1b, hcom]
          subst he1
          subst he1b
          constructor
          · intro e2 h
            simp only [] at h ⊢
            rw [visit_err_unfold env fuel d st1 e c21 hp1] at h
            rw [visit_err_unfold env fuel d st1b e c21b hp1b]
            exact h
          · intro st2 h
            simp only [] at h
            rw [visit_err_unfold env fuel d st1 e c21 hp1] at h
            cases h
        | ok spec =>
          have he1 : r1 = .ok spec := by rw [hr1, hcom]
          have he1b : r1b = .ok spec := by rw [hr1b, hcom]
          subst he1
          subst he1b
          have hlist := visitList_equiv env (fun d2 s2 => visit env fuel d2 s2)
            ih spec.dependencies
            { result := appendSchema st1.result d spec.text, seen := st1.seen,
              cache := c21, emitted := st1.emitted ++ [(d, spec.text)] }
            { result := appendSchema st1b.result d spec.text, seen := st1b.seen,
              cache := c21b, emitted := st1b.emitted ++ [(d, spec.text)] }
            (by rw [hres]) (by rw [hseen]) (by rw [hem]) hc21 hc21b
          constructor
          · intro e2 h
            simp only [] at h ⊢
            rw [visit_ok_unfold env fuel d st1 spec c21 hp1] at h
            rw [visit_ok_unfold env fuel d st1b spec c21b hp1b]
            exact hlist.1 e2 h
          · intro st2 h
            simp only [] at h
            rw [visit_ok_unfold env fuel d st1 spec c21 hp1] at h
            obtain ⟨st2b, hok, hrest⟩ := hlist.2 st2 h
            refine ⟨st2b, ?_, hrest⟩
            simp only []
            rw [visit_ok_unfold env fuel d st1b spec c21b hp1b]
            exact hok

/-- C10: each schema's dependency set is kept in strictly increasing
lexicographic order (so the closure walk, which iterates it in list
order, follows that fixed order), and the rendered document is a
function of the environment alone: a call on any cache consistent with
the environment — in particular any cache populated by earlier calls —
returns the same outcome, byte for byte, as a call on the fresh empty
cache. -/
theorem C10_determinism :
    (∀ text pkg, List.Pairwise (fun a b => strLt a b = true)
      (parse_dependencies text pkg)) ∧
    (∀ (env : Env) (cache : Cache) (root : String) (fuel : Nat),
      CacheConsistent env cache →
      (get_full_text env cache root fuel).map Prod.fst =
        (get_full_text env [] root fuel).map Prod.fst) := by
  constructor
  · intro text pkg
    exact foldl_depInsert_sorted pkg (scanTokens text) [] (by simp [SortedStr])
  · intro env cache root fuel hcons
    have hnil : CacheConsistent env [] := by
      intro d s hl
      simp [lookupA] at hl
    have hrel := visit_equiv env fuel root
      { result := "", seen := [root], cache := cache, emitted := [] }
      { result := "", seen := [root], cache := [], emitted := [] }
      rfl rfl rfl hcons hnil
    unfold get_full_text get_full_text_trace
    cases h1 : visit env fuel root
        { result := "", seen := [root], cache := cache, emitted := [] } with
    | error e =>
      have h1b := hrel.1 e h1
      simp only [] at h1b
      rw [h1b]
    | ok st2 =>
      obtain ⟨st2b, h1b, hres, _, _, _, _⟩ := hrel.2 st2 h1
      simp only [] at h1b
      rw [h1b]
      simp only [Except.map]
      rw [hres]

/-- Witness for C10: the dependency set of the circle root is sorted,
and running `get_full_text` against a cache already holding the Point
schema returns the same document as running it on the empty cache. -/
theorem C10_determinism_witness :
    List.Pairwise (fun a b => strLt a b = true)
      (parse_dependencies "geometry_msgs/Point position\nfloat64 radius\n"
        "circle_msgs") ∧
    (get_full_text circleEnv
        [("geometry_msgs/Point",
          MessageSpec.make "float64 x\nfloat64 y\nfloat64 z\n" "geometry_msgs")]
        "circle_msgs/Circle" 5).map Prod.fst =
      (get_full_text circleEnv [] "circle_msgs/Circle" 5).map Prod.fst := by
  constructor
  · exact C10_determinism.1 "geometry_msgs/Point position\nfloat64 radius\n"
      "circle_msgs"
  · apply C10_determinism.2 circleEnv
      [("geometry_msgs/Point",
        MessageSpec.make "float64 x\nfloat64 y\nfloat64 z\n" "geometry_msgs")]
      "circle_msgs/Circle" 5
    intro d s hl
    by_cases hd : "geometry_msgs/Point" = d
    · have h2 : lookupA
          [("geometry_msgs/Point",
            MessageSpec.make "float64 x\nfloat64 y\nfloat64 z\n" "geometry_msgs")]
          d =
          some (MessageSpec.make "float64 x\nfloat64 y\nfloat64 z\n"
            "geometry_msgs") := by
        unfold lookupA
        rw [if_pos hd]
      rw [hl] at h2
      injection h2 with h3
      rw [h3, ← hd]
      rfl
    · have h2 : lookupA
          [("geometry_msgs/Point",
            MessageSpec.make "float64 x\nfloat64 y\nfloat64 z\n" "geometry_msgs")]
          d = none := by
        unfold lookupA
        rw [if_neg hd]
        rfl
      rw [hl] at h2
      cases h2
